import Mathlib

/-!
Verification of the code-clash judging core: a shallow embedding of the
submission worker, the scoring aggregation, the error classifier, the
resource-limited runner's environment and timeout handling, the per-language
harness synthesizers, and the executor's three-tier output comparison,
together with proofs that settle the frozen claims about them.

Conventions of the embedding:
* Python numeric values are modelled exactly: `float` arithmetic appearing in
  the sources (score computation, timeouts) is modelled over `ℚ`; IEEE
  rounding noise is out of scope of the model and noted where relevant.
* Database rows are modelled as Lean structures, tables as lists of rows.
* `datetime.utcnow()` timestamps are modelled as an abstract `Nat` supplied by
  the caller.
-/

/-! ### Submission worker: terminal status mapping (submission_worker.py, `_evaluate_submission`) -/

/-- The terminal status chosen by the worker after an evaluation that raised
no exception, from `submission_worker.py` lines 141-147: `timeout` when the
aggregate `error_type` is `time_limit_exceeded` and no test passed, `failed`
when it is `compile_error` or `runtime_error` and no test passed, otherwise
`completed`. -/
def finalStatus (errorType : Option String) (passed : Nat) : String :=
  if errorType = some "time_limit_exceeded" ∧ passed = 0 then "timeout"
  else if (errorType = some "compile_error" ∨ errorType = some "runtime_error") ∧ passed = 0 then
    "failed"
  else "completed"

/-! ### Score computation (submission_worker.py line 132, submission_service.py line 128) -/

/-- Python 3 `round`: round half to even (banker's rounding). -/
def pyRound (q : ℚ) : Int :=
  if q - ⌊q⌋ < 1 / 2 then ⌊q⌋
  else if (1 : ℚ) / 2 < q - ⌊q⌋ then ⌊q⌋ + 1
  else if ⌊q⌋ % 2 = 0 then ⌊q⌋ else ⌊q⌋ + 1

/-- The submission row fields the worker's exception handler writes. These
columns do exist in the database (the initial Alembic migration creates
`retry_count`, `error_type` and `error_message` on `submissions`); whether
the ORM exposes them on an instance is a separate question, modelled below. -/
structure SubmissionRec where
  status : String
  retryCount : Nat
  errorType : Option String
  errorMessage : Option String
  completedAt : Option Nat
deriving Repr, DecidableEq

/-- Default `WORKER_MAX_RETRIES` from `config.py` line 67. -/
def WORKER_MAX_RETRIES : Nat := 1

/-- The columns the `Submission` ORM model maps (`app/models/submission.py`
lines 14-26) — the only attributes SQLAlchemy instruments on a loaded
instance. `retry_count`, `error_type` and `error_message`, although created
in the database by the migration and mentioned by the response schema, are
not among them. -/
def submissionColumns : List String :=
  ["id", "idempotency_key", "user_id", "question_id", "language", "code",
   "score", "max_score", "execution_time", "memory_used", "status",
   "submitted_at", "completed_at"]

/-- The unmapped attributes the worker can have assigned on the in-memory
instance before the except handler runs: `started_at`
(`submission_worker.py` line 88, always) and `error_type`/`error_message`
(`_evaluate_submission` lines 137-138, reached when the evaluation fails
only after the executor returned). Such plain-Python instance attributes
are readable once set (though never persisted); `retry_count` is assigned
nowhere before the handler reads it. -/
def workerSetAttrs : List String := ["started_at", "error_type", "error_message"]

/-- Whether a Python attribute read on the worker's submission instance can
succeed: the attribute is an ORM-mapped column or was assigned on the
instance earlier in the worker. Any other read raises `AttributeError`. -/
def workerAttrReadOk (a : String) : Bool :=
  submissionColumns.contains a || workerSetAttrs.contains a

/-- The worker's handler for an unhandled exception raised while evaluating a
claimed job, from `submission_worker.py` lines 94-108. Its first step reads
`submission.retry_count` (line 98). If that attribute read succeeds, then
below the retry budget the job is re-queued with `retry_count` incremented
and `error_type` `worker_retry`, and otherwise it is failed with
`error_type` `worker_failure` and `completed_at` set to the current time; if
the read raises, the except block itself raises and no update happens. -/
def handleWorkerException (maxRetries : Nat) (now : Nat) (excMessage : String)
    (s : SubmissionRec) : Except String SubmissionRec :=
  if workerAttrReadOk "retry_count" then
    if s.retryCount < maxRetries then
      .ok { s with
        retryCount := s.retryCount + 1
        status := "queued"
        errorType := some "worker_retry"
        errorMessage := some excMessage }
    else
      .ok { s with
        status := "failed"
        errorType := some "worker_failure"
        errorMessage := some excMessage
        completedAt := some now }
  else
    .error "AttributeError: retry_count"

/-! ### Error classification (code_executor.py, `_classify_error`, lines 74-83) -/

/-- Whether the second char list starts with the first (pattern first). -/
def listStartsWith : List Char → List Char → Bool
  | [], _ => true
  | _ :: _, [] => false
  | p :: ps, c :: cs => p = c && listStartsWith ps cs

/-- Whether `pat` occurs as a contiguous substring of the char list. -/
def listContainsSub (pat : List Char) : List Char → Bool
  | [] => listStartsWith pat []
  | c :: cs => listStartsWith pat (c :: cs) || listContainsSub pat cs

/-- Python's `needle in haystack` on strings: substring containment. -/
def containsSub (pat s : String) : Bool := listContainsSub pat.data s.data

/-- ASCII lower-casing of one character (Python `str.lower()` restricted to
the ASCII range; the sources only compare ASCII keywords). -/
def pyLowerChar (c : Char) : Char :=
  if 'A' ≤ c ∧ c ≤ 'Z' then Char.ofNat (c.toNat + 32) else c

/-- Python `str.lower()` over the ASCII model. -/
def pyLower (s : String) : String := ⟨s.data.map pyLowerChar⟩

/-- The executor's stderr classifier, from `code_executor._classify_error`:
lower-case the text, then in order check the timeout keywords, the substring
`compile`, the generic error keywords, with `runtime_error` as the fallback.
(The Python `(stderr or "")` None-guard is outside the string model.) -/
def classifyError (stderr : String) : String :=
  let text := pyLower stderr
  if containsSub "time limit exceeded" text || containsSub "timed out" text then
    "time_limit_exceeded"
  else if containsSub "compile" text then "compile_error"
  else if containsSub "error" text || containsSub "traceback" text ||
      containsSub "exception" text then "runtime_error"
  else "runtime_error"

/-! ### Per-test timeout (code_executor.py, `_run_code`, lines 1325-1330) -/

/-- Default `CODE_EXECUTION_TIMEOUT` (seconds) from `config.py` line 58. -/
def CODE_EXECUTION_TIMEOUT : Nat := 5

/-- The wall-clock timeout `_run_code` passes to `subprocess.run`: the global
configured timeout, unless the test case carries `timeout_ms`, in which case
`max(0.1, timeout_ms / 1000.0)` (floats modelled exactly over `ℚ`; the
`except` fallback of the conversion is outside the integer model). -/
def effectiveTimeoutSeconds (globalTimeout : ℚ) (timeoutMs : Option Int) : ℚ :=
  match timeoutMs with
  | none => globalTimeout
  | some ms => max (1 / 10 : ℚ) ((ms : ℚ) / 1000)

/-! ### Child process environment (code_executor.py, `_sanitize_env` lines 85-104 and `_run_code` lines 1303-1307) -/

/-- The allow-list of `_sanitize_env`. -/
def allowedEnvKeys : List String :=
  ["PATH", "HOME", "LANG", "LC_ALL", "TMPDIR", "SystemRoot", "WINDIR"]

/-- Dictionary lookup on an association-list environment. -/
def envGet (env : List (String × String)) (k : String) : Option String :=
  (env.find? (fun p => p.1 == k)).map (fun p => p.2)

/-- Python dict assignment `env[k] = v`: replace an existing binding or append. -/
def envSet (env : List (String × String)) (k v : String) : List (String × String) :=
  if env.any (fun p => p.1 == k) then
    env.map (fun p => if p.1 == k then (k, v) else p)
  else env ++ [(k, v)]

/-- `_sanitize_env`: keep only the allow-listed keys whose value in the parent
environment is truthy (a non-empty string). -/
def sanitizeEnv (osEnv : List (String × String)) : List (String × String) :=
  allowedEnvKeys.filterMap (fun k =>
    match envGet osEnv k with
    | some v => if v ≠ "" then some (k, v) else none
    | none => none)

/-- The environment `_run_code` passes to the child: the sanitized environment,
plus — only for `python` runs with a known user id whose per-user directory
exists — a `PYTHONPATH` binding `user_env + os.pathsep + env.get("PYTHONPATH", "")`
(`os.pathsep` modelled as the Unix `:`). -/
def runCodeEnv (osEnv : List (String × String)) (language : String)
    (userId : Option Nat) (userEnvExists : Bool) (userEnvPath : String) :
    List (String × String) :=
  let env := sanitizeEnv osEnv
  if language = "python" ∧ userId ≠ none ∧ userEnvExists = true then
    envSet env "PYTHONPATH"
      (userEnvPath ++ ":" ++ (match envGet env "PYTHONPATH" with
        | some v => v
        | none => ""))
  else env

/-! ### JSON values (for the executor's output comparison, `_compare_output`, code_executor.py lines 1353-1384)

A JSON-serializable Python value is modelled by `JVal`. Python floats are
modelled as exact decimals: `jfloat m e` denotes `m / 10 ^ (e + 1)` — every
Python float prints as a decimal with at least one fractional digit, which
this mirrors; IEEE binary rounding noise is outside the model, numeric
comparisons are exact. -/

/-- A JSON-serializable Python value: `None`, `bool`, `int`, `float`
(exact decimal `m / 10 ^ (e + 1)`), `str`, `list`, `dict`. -/
inductive JVal : Type where
  | jnull : JVal
  | jbool (b : Bool) : JVal
  | jint (n : Int) : JVal
  | jfloat (m : Int) (e : Nat) : JVal
  | jstr (s : String) : JVal
  | jarr (xs : List JVal) : JVal
  | jobj (kvs : List (String × JVal)) : JVal
deriving Repr, Inhabited

/-- The opening brace character (written by code point to keep string
literals free of braces). -/
def lbrace : Char := Char.ofNat 123

/-- The closing brace character. -/
def rbrace : Char := Char.ofNat 125

/-- The decimal digit character for `d < 10`. -/
def digitChar (d : Nat) : Char := Char.ofNat (48 + d)

/-- Little-endian decimal digits of `n`, with explicit fuel (structural so
that the kernel can evaluate it); correct whenever `n ≤ fuel`. -/
def natDigitsAux : Nat → Nat → List Char
  | 0, _ => []
  | _, 0 => []
  | fuel + 1, n + 1 => digitChar ((n + 1) % 10) :: natDigitsAux fuel ((n + 1) / 10)

/-- Big-endian decimal digits of `n` (`"0"` for 0), as Python prints a
nonnegative integer. -/
def natToDigits (n : Nat) : List Char :=
  if n = 0 then ['0'] else (natDigitsAux n n).reverse

/-- Decimal digits of `v` left-padded with zeros to exactly `width` characters
(used for the fractional part of a float); correct whenever `v < 10 ^ width`. -/
def natPad (v width : Nat) : List Char :=
  List.replicate (width - (natToDigits v).length) '0' ++ natToDigits v

/-- Python's rendering of an `int` (as serialized by `json.dumps` and `str`). -/
def serInt : Int → List Char
  | .ofNat k => natToDigits k
  | .negSucc k => '-' :: natToDigits (k + 1)

/-- Python's rendering of the model float `m / 10 ^ (e + 1)`: sign, integer
part, `.`, exactly `e + 1` fractional digits. -/
def serFloat (m : Int) (e : Nat) : List Char :=
  (if m < 0 then ['-'] else []) ++
    natToDigits (m.natAbs / 10 ^ (e + 1)) ++
    '.' :: natPad (m.natAbs % 10 ^ (e + 1)) (e + 1)

/-- The hexadecimal digit character for `d < 16` (lowercase letters). -/
def hexDigitChar (d : Nat) : Char :=
  if d < 10 then Char.ofNat (48 + d) else Char.ofNat (87 + d)

/-- JSON string escaping of one character, as `json.dumps` emits it:
two-character escapes for backslash, quote, newline, carriage return, tab,
backspace and form feed, `\u00XX` for the remaining control characters,
everything else verbatim (non-ASCII is left raw, as with
`ensure_ascii=False` and as the JavaScript harness's `JSON.stringify`). -/
def escChar (c : Char) : List Char :=
  if c = '"' then ['\\', '"']
  else if c = '\\' then ['\\', '\\']
  else if c = '\n' then ['\\', 'n']
  else if c = '\r' then ['\\', 'r']
  else if c = '\t' then ['\\', 't']
  else if c.toNat = 8 then ['\\', 'b']
  else if c.toNat = 12 then ['\\', 'f']
  else if c.toNat < 32 then
    '\\' :: 'u' :: '0' :: '0' ::
      hexDigitChar (c.toNat / 16) :: [hexDigitChar (c.toNat % 16)]
  else [c]

/-- JSON string escaping of a character list. -/
def escChars (cs : List Char) : List Char := cs.foldr (fun c acc => escChar c ++ acc) []

mutual

/-- JSON serialization of a value, as Python's `json.dumps` renders it (with
the default separators `", "` and `": "`). -/
def serVal : JVal → List Char
  | .jnull => "null".data
  | .jbool true => "true".data
  | .jbool false => "false".data
  | .jint n => serInt n
  | .jfloat m e => serFloat m e
  | .jstr s => '"' :: escChars s.data ++ ['"']
  | .jarr xs => '[' :: serArr xs ++ [']']
  | .jobj kvs => lbrace :: serObj kvs ++ [rbrace]

/-- Serialization of the element list of an array (no brackets). -/
def serArr : List JVal → List Char
  | [] => []
  | x :: xs => serVal x ++ serArrTail xs

/-- Serialization of the remaining elements, each preceded by `", "`. -/
def serArrTail : List JVal → List Char
  | [] => []
  | x :: xs => ',' :: ' ' :: (serVal x ++ serArrTail xs)

/-- Serialization of the field list of an object (no braces). -/
def serObj : List (String × JVal) → List Char
  | [] => []
  | kv :: kvs => serField kv ++ serObjTail kvs

/-- Serialization of the remaining fields, each preceded by `", "`. -/
def serObjTail : List (String × JVal) → List Char
  | [] => []
  | kv :: kvs => ',' :: ' ' :: (serField kv ++ serObjTail kvs)

/-- Serialization of one `"key": value` field. -/
def serField : String × JVal → List Char
  | (k, v) => '"' :: escChars k.data ++ '"' :: ':' :: ' ' :: serVal v

end

mutual

/-- Fuel bound for the JSON parser: enough recursion depth to re-parse the
value's own serialization. -/
def jsize : JVal → Nat
  | .jnull => 1
  | .jbool _ => 1
  | .jint _ => 1
  | .jfloat _ _ => 1
  | .jstr _ => 1
  | .jarr xs => 1 + jsizeItems xs
  | .jobj kvs => 1 + jsizeFields kvs

/-- Fuel bound for an array's element list. -/
def jsizeItems : List JVal → Nat
  | [] => 1
  | x :: xs => 1 + jsize x + jsizeItems xs

/-- Fuel bound for an object's field list. -/
def jsizeFields : List (String × JVal) → Nat
  | [] => 1
  | kv :: kvs => 1 + jsize kv.2 + jsizeFields kvs

end

/-- Whether an object field list has pairwise distinct keys. -/
def keysNodup : List (String × JVal) → Bool
  | [] => true
  | kv :: rest => !(rest.any (fun p => p.1 == kv.1)) && keysNodup rest

mutual

/-- Well-formedness of a modelled Python value: every `dict` in it has
pairwise distinct keys (a Python `dict` cannot hold duplicate keys). -/
def wfJ : JVal → Bool
  | .jnull => true
  | .jbool _ => true
  | .jint _ => true
  | .jfloat _ _ => true
  | .jstr _ => true
  | .jarr xs => wfItems xs
  | .jobj kvs => keysNodup kvs && wfFields kvs

/-- Well-formedness of an array's elements. -/
def wfItems : List JVal → Bool
  | [] => true
  | x :: xs => wfJ x && wfItems xs

/-- Well-formedness of an object's field values. -/
def wfFields : List (String × JVal) → Bool
  | [] => true
  | kv :: kvs => wfJ kv.2 && wfFields kvs

end

/-- Keep, for each key, only its last binding (Python dict construction
semantics: later duplicate keys override earlier ones). -/
def dedupLastKeys : List (String × JVal) → List (String × JVal)
  | [] => []
  | kv :: rest =>
    if rest.any (fun p => p.1 == kv.1) then dedupLastKeys rest
    else kv :: dedupLastKeys rest

/-- Lookup of a key in an object field list. -/
def lookupKey (k : String) (kvs : List (String × JVal)) : Option JVal :=
  (kvs.find? (fun p => p.1 == k)).map (fun p => p.2)

/-- The numeric value of a Python number (`bool`, `int` or `float`) as an
exact pair `(mantissa, exponent)` denoting `mantissa * 10 ^ exponent`. -/
def asNum? : JVal → Option (Int × Int)
  | .jbool b => some (if b then 1 else 0, 0)
  | .jint n => some (n, 0)
  | .jfloat m e => some (m, -(e + 1 : Int))
  | _ => none

/-- Exact equality of two `mantissa * 10 ^ exponent` numbers. -/
def numEqE : Int × Int → Int × Int → Bool
  | (m1, e1), (m2, e2) =>
    if e1 ≤ e2 then m1 = m2 * 10 ^ (e2 - e1).toNat
    else m2 = m1 * 10 ^ (e1 - e2).toNat

/-- Python `==` between two modelled values, with explicit fuel (correct
whenever the fuel exceeds the sizes involved): numbers (including `bool`)
compare by exact numeric value across types, strings structurally, lists
pointwise, dicts by key lookup ignoring order (after last-binding-wins
deduplication). -/
def pyEqF : Nat → JVal → JVal → Bool
  | 0, _, _ => false
  | fuel + 1, a, b =>
    match asNum? a, asNum? b with
    | some x, some y => numEqE x y
    | _, _ =>
      match a, b with
      | .jnull, .jnull => true
      | .jstr s, .jstr t => s = t
      | .jarr xs, .jarr ys =>
        xs.length = ys.length &&
          (xs.zip ys).all (fun p => pyEqF fuel p.1 p.2)
      | .jobj kvs, .jobj lvs =>
        let da := dedupLastKeys kvs
        let db := dedupLastKeys lvs
        da.length = db.length &&
          da.all (fun kv =>
            match lookupKey kv.1 db with
            | some w => pyEqF fuel kv.2 w
            | none => false)
      | _, _ => false

/-- Python `==` between two modelled values. -/
def pyEq (a b : JVal) : Bool := pyEqF (jsize a + jsize b) a b

/-! ### JSON parsing (the `json.loads` used by `_compare_output`) -/

/-- JSON inter-token whitespace (space, tab, newline, carriage return). -/
def jsonWs (c : Char) : Bool := c = ' ' || c = '\t' || c = '\n' || c = '\r'

/-- Skip leading JSON whitespace. -/
def skipWs (cs : List Char) : List Char := cs.dropWhile jsonWs

/-- The numeric value of one hexadecimal digit character. -/
def hexVal (c : Char) : Option Nat :=
  if '0' ≤ c ∧ c ≤ '9' then some (c.toNat - 48)
  else if 'a' ≤ c ∧ c ≤ 'f' then some (c.toNat - 87)
  else if 'A' ≤ c ∧ c ≤ 'F' then some (c.toNat - 55)
  else none

/-- Decode a `\uXXXX` escape into a character. Codes in the surrogate range
are rejected (the serializations modelled here never produce them; Python
would additionally pair surrogates for astral characters). -/
def decodeHex4 (a b c d : Char) : Option Char :=
  match hexVal a, hexVal b, hexVal c, hexVal d with
  | some w, some x, some y, some z =>
    let n := ((w * 16 + x) * 16 + y) * 16 + z
    if n < 55296 then some (Char.ofNat n)
    else if 57343 < n then some (Char.ofNat n)
    else none
  | _, _, _, _ => none

/-- Parse the body of a JSON string (after the opening quote) into the
accumulated characters, returning the string and the input after the closing
quote. Raw control characters are rejected (Python's strict mode). -/
def parseStrBody : List Char → List Char → Option (String × List Char)
  | [], _ => none
  | c :: rest, acc =>
    if c = '"' then some (⟨acc.reverse⟩, rest)
    else if c = '\\' then
      match rest with
      | [] => none
      | e :: rest2 =>
        if e = '"' then parseStrBody rest2 ('"' :: acc)
        else if e = '\\' then parseStrBody rest2 ('\\' :: acc)
        else if e = '/' then parseStrBody rest2 ('/' :: acc)
        else if e = 'n' then parseStrBody rest2 ('\n' :: acc)
        else if e = 'r' then parseStrBody rest2 ('\r' :: acc)
        else if e = 't' then parseStrBody rest2 ('\t' :: acc)
        else if e = 'b' then parseStrBody rest2 (Char.ofNat 8 :: acc)
        else if e = 'f' then parseStrBody rest2 (Char.ofNat 12 :: acc)
        else if e = 'u' then
          match rest2 with
          | h1 :: h2 :: h3 :: h4 :: rest3 =>
            match decodeHex4 h1 h2 h3 h4 with
            | some ch => parseStrBody rest3 (ch :: acc)
            | none => none
          | _ => none
        else none
    else if c.toNat < 32 then none
    else parseStrBody rest (c :: acc)

/-- The decimal digit test (`Char.isDigit`, stated over `Char.toNat` so that
arithmetic reasoning is direct). -/
def isDigitC (c : Char) : Bool := decide (48 ≤ c.toNat) && decide (c.toNat ≤ 57)

/-- Consume a maximal run of decimal digits, accumulating their value and
count. -/
def takeDigits : List Char → Nat → Nat → Nat × Nat × List Char
  | [], acc, cnt => (acc, cnt, [])
  | c :: cs, acc, cnt =>
    if isDigitC c then takeDigits cs (acc * 10 + (c.toNat - 48)) (cnt + 1)
    else (acc, cnt, c :: cs)

/-- Apply a parsed sign to a magnitude. -/
def intSign (neg : Bool) (n : Nat) : Int := if neg then -(n : Int) else (n : Int)

/-- Build the model float for an exact value `m * 10 ^ net`: with `net ≤ -1`
the mantissa already carries `-net` decimal places, otherwise the value is
scaled to one decimal place. -/
def mkFloat (m : Int) (net : Int) : JVal :=
  if net < 0 then .jfloat m ((-net).toNat - 1)
  else .jfloat (m * 10 ^ (net.toNat + 1)) 0

/-- Split an optional leading sign (`+` accepted only when `allowPlus`). -/
def splitSign (allowPlus : Bool) (cs : List Char) : Bool × List Char :=
  match cs with
  | [] => (false, [])
  | c :: t =>
    if c = '-' then (true, t)
    else if allowPlus ∧ c = '+' then (false, t)
    else (false, cs)

/-- Split an optional fractional part `.digits`, returning presence flag,
value, digit count and remainder. -/
def splitFrac (cs : List Char) : Bool × Nat × Nat × List Char :=
  match cs with
  | [] => (false, 0, 0, [])
  | c :: t =>
    if c = '.' then
      let d := takeDigits t 0 0
      (true, d.1, d.2.1, d.2.2)
    else (false, 0, 0, cs)

/-- Split an optional exponent part `(e|E)(+|-)?digits`, returning presence
flag, signed exponent, digit count and remainder. -/
def splitExp (cs : List Char) : Bool × Int × Nat × List Char :=
  match cs with
  | [] => (false, 0, 0, [])
  | c :: t =>
    if c = 'e' ∨ c = 'E' then
      let es := splitSign true t
      let d := takeDigits es.2 0 0
      (true, intSign es.1 d.1, d.2.1, d.2.2)
    else (false, 0, 0, cs)

/-- Parse a JSON number (integer part required; fraction and exponent
optional; a decimal point or exponent makes the result a float, as in
Python's `json.loads`). Leading-zero rejection is not modelled. -/
def parseNum (cs : List Char) : Option (JVal × List Char) :=
  let sn := splitSign false cs
  let intDigits := takeDigits sn.2 0 0
  let i := intDigits.1
  let icnt := intDigits.2.1
  let r1 := intDigits.2.2
  if icnt = 0 then none
  else
    let fr := splitFrac r1
    let hasFrac := fr.1
    let f := fr.2.1
    let fcnt := fr.2.2.1
    let r2 := fr.2.2.2
    if hasFrac ∧ fcnt = 0 then none
    else
      let ep := splitExp r2
      let hasExp := ep.1
      let ex := ep.2.1
      let ecnt := ep.2.2.1
      let r3 := ep.2.2.2
      if hasExp ∧ ecnt = 0 then none
      else if ¬ hasFrac ∧ ¬ hasExp then some (.jint (intSign sn.1 i), r3)
      else some (mkFloat (intSign sn.1 (i * 10 ^ fcnt + f)) (ex - (fcnt : Int)), r3)

mutual

/-- Parse one JSON value (after skipping leading whitespace), with fuel
bounding the recursion depth. -/
def parseVal : Nat → List Char → Option (JVal × List Char)
  | 0, _ => none
  | fuel + 1, input =>
    match skipWs input with
    | [] => none
    | c :: cs =>
      if c = 'n' then
        match cs with
        | 'u' :: 'l' :: 'l' :: rest => some (.jnull, rest)
        | _ => none
      else if c = 't' then
        match cs with
        | 'r' :: 'u' :: 'e' :: rest => some (.jbool true, rest)
        | _ => none
      else if c = 'f' then
        match cs with
        | 'a' :: 'l' :: 's' :: 'e' :: rest => some (.jbool false, rest)
        | _ => none
      else if c = '"' then
        match parseStrBody cs [] with
        | some (s, rest) => some (.jstr s, rest)
        | none => none
      else if c = '[' then
        match skipWs cs with
        | [] => none
        | c2 :: cs2 =>
          if c2 = ']' then some (.jarr [], cs2)
          else
            match parseItemsRest fuel (c2 :: cs2) with
            | some (vs, rest) => some (.jarr vs, rest)
            | none => none
      else if c = lbrace then
        match skipWs cs with
        | [] => none
        | c2 :: cs2 =>
          if c2 = rbrace then some (.jobj [], cs2)
          else
            match parseFieldsRest fuel (c2 :: cs2) with
            | some (kvs, rest) => some (.jobj (dedupLastKeys kvs), rest)
            | none => none
      else if c = '-' ∨ isDigitC c then parseNum (c :: cs)
      else none

/-- Parse the non-empty element list of an array up to and including the
closing bracket. -/
def parseItemsRest : Nat → List Char → Option (List JVal × List Char)
  | 0, _ => none
  | fuel + 1, cs =>
    match parseVal fuel cs with
    | none => none
    | some (v, r) =>
      match skipWs r with
      | [] => none
      | c :: r2 =>
        if c = ',' then
          match parseItemsRest fuel r2 with
          | some (vs, r3) => some (v :: vs, r3)
          | none => none
        else if c = ']' then some ([v], r2)
        else none

/-- Parse the non-empty field list of an object up to and including the
closing brace. -/
def parseFieldsRest : Nat → List Char → Option (List (String × JVal) × List Char)
  | 0, _ => none
  | fuel + 1, cs =>
    match skipWs cs with
    | [] => none
    | c :: r =>
      if c = '"' then
        match parseStrBody r [] with
        | none => none
        | some (k, r1) =>
          match skipWs r1 with
          | [] => none
          | c2 :: r2 =>
            if c2 = ':' then
              match parseVal fuel r2 with
              | none => none
              | some (v, r3) =>
                match skipWs r3 with
                | [] => none
                | c3 :: r4 =>
                  if c3 = ',' then
                    match parseFieldsRest fuel r4 with
                    | some (kvs, r5) => some ((k, v) :: kvs, r5)
                    | none => none
                  else if c3 = rbrace then some ([(k, v)], r4)
                  else none
            else none
      else none

end

/-- Python `json.loads` on a character list: parse one value, demand that only
whitespace follows, and fail otherwise. (The non-standard `NaN`/`Infinity`
literals Python also accepts are outside the model.) -/
def jsonLoadsL (cs : List Char) : Option JVal :=
  match parseVal (2 * cs.length + 1) cs with
  | some (v, rest) => if skipWs rest = [] then some v else none
  | none => none

/-- Python `float(s)` on an already-stripped string, as an exact
`mantissa * 10 ^ exponent` pair: optional sign, digits with optional decimal
point (at least one digit overall) and optional exponent.
(`inf`/`nan`/underscores are outside the model: `none` here means the Python
call raises `ValueError` — or yields a non-finite value never equal under
the claims at issue.) -/
def pyFloat (cs : List Char) : Option (Int × Int) :=
  let sn := splitSign true cs
  let intDigits := takeDigits sn.2 0 0
  let i := intDigits.1
  let icnt := intDigits.2.1
  let r1 := intDigits.2.2
  let fr := splitFrac r1
  let f := fr.2.1
  let fcnt := fr.2.2.1
  let r2 := fr.2.2.2
  if icnt + fcnt = 0 then none
  else
    let ep := splitExp r2
    let hasExp := ep.1
    let ex := ep.2.1
    let ecnt := ep.2.2.1
    let r3 := ep.2.2.2
    if hasExp ∧ ecnt = 0 then none
    else if r3 ≠ [] then none
    else some (intSign sn.1 (i * 10 ^ fcnt + f), ex - (fcnt : Int))

/-! ### Python `str()` of a value (used by `_compare_output`'s first tier) -/

/-- Python `repr` escaping of one character inside a string literal
(backslash, quote, newline, carriage return, tab, `\xXX` for other control
characters). -/
def reprChar (c : Char) : List Char :=
  if c = '\\' then ['\\', '\\']
  else if c.toNat = 39 then ['\\', Char.ofNat 39]
  else if c = '\n' then ['\\', 'n']
  else if c = '\r' then ['\\', 'r']
  else if c = '\t' then ['\\', 't']
  else if c.toNat < 32 then
    ['\\', 'x', hexDigitChar (c.toNat / 16), hexDigitChar (c.toNat % 16)]
  else [c]

/-- Python `repr` of a string: single-quoted with escapes (the double-quote
preference when a string contains a quote is not modelled). -/
def pyReprStr (s : String) : List Char :=
  Char.ofNat 39 :: (s.data.foldr (fun c acc => reprChar c ++ acc) []) ++ [Char.ofNat 39]

mutual

/-- Python `repr` of a modelled value. -/
def pyRepr : JVal → List Char
  | .jnull => "None".data
  | .jbool true => "True".data
  | .jbool false => "False".data
  | .jint n => serInt n
  | .jfloat m e => serFloat m e
  | .jstr s => pyReprStr s
  | .jarr xs => '[' :: pyReprArr xs ++ [']']
  | .jobj kvs => lbrace :: pyReprObj kvs ++ [rbrace]

/-- `repr` of a list's elements. -/
def pyReprArr : List JVal → List Char
  | [] => []
  | x :: xs => pyRepr x ++ pyReprArrTail xs

/-- `repr` of the remaining elements, each preceded by `", "`. -/
def pyReprArrTail : List JVal → List Char
  | [] => []
  | x :: xs => ',' :: ' ' :: (pyRepr x ++ pyReprArrTail xs)

/-- `repr` of a dict's fields. -/
def pyReprObj : List (String × JVal) → List Char
  | [] => []
  | kv :: kvs => pyReprField kv ++ pyReprObjTail kvs

/-- `repr` of the remaining fields, each preceded by `", "`. -/
def pyReprObjTail : List (String × JVal) → List Char
  | [] => []
  | kv :: kvs => ',' :: ' ' :: (pyReprField kv ++ pyReprObjTail kvs)

/-- `repr` of one `key: value` field. -/
def pyReprField : String × JVal → List Char
  | (k, v) => pyReprStr k ++ ':' :: ' ' :: pyRepr v

end

/-- Python `str()` of a modelled value: the characters themselves for a
string, `repr` otherwise. -/
def pyStr : JVal → List Char
  | .jstr s => s.data
  | v => pyRepr v

/-! ### The three-tier output comparison (`_compare_output`) -/

/-- Python `str.strip()` whitespace (space, tab, newline, carriage return,
vertical tab, form feed; non-ASCII whitespace is outside the model). -/
def pySpace (c : Char) : Bool :=
  c = ' ' || c = '\t' || c = '\n' || c = '\r' || c.toNat = 11 || c.toNat = 12

/-- Python `str.strip()` on a character list. -/
def pyStripL (cs : List Char) : List Char :=
  ((cs.dropWhile pySpace).reverse.dropWhile pySpace).reverse

/-- `_compare_output(output, expected)`, transcribed tier by tier: exact
trimmed string equality of `str(output)` and `str(expected)`; else JSON-parse
the output and deep-compare with `expected` (and, failing that, with the
JSON-parse of `str(expected)`); else compare both sides as floats. The first
successful tier returns `True`. -/
def compareOutput (output : String) (expected : JVal) : Bool :=
  let os := pyStripL output.data
  let es := pyStripL (pyStr expected)
  if os = es then true
  else
    let tier2 : Bool :=
      match jsonLoadsL os with
      | some op =>
        if pyEq op expected then true
        else
          match jsonLoadsL es with
          | some ep => pyEq op ep
          | none => false
      | none => false
    if tier2 then true
    else
      match pyFloat os, pyFloat es with
      | some x, some y => numEqE x y
      | _, _ => false

/-- Numeric continuation characters: a serialized number directly followed by
one of these would parse differently, every other follower is safe. -/
def numCont (c : Char) : Bool := isDigitC c || c = '.' || c = 'e' || c = 'E'

/-- A trailing input that cannot extend a just-parsed number. -/
def safeRestB : List Char → Bool
  | [] => true
  | c :: _ => !(numCont c)

/-! ### Single-test execution (code_executor.py, `_execute_single_test`, lines 232-329) -/

/-- One test case as the challenge store supplies it:
`{id, input, output, timeout_ms?}`. -/
structure TestCaseRec where
  id : Nat
  input : JVal
  expectedOutput : JVal
  timeoutMs : Option Int
deriving Repr

/-- One entry of `execute_code`'s result list (the fields later persisted and
aggregated). -/
structure ResultEntry where
  testCaseId : Nat
  passed : Bool
  executionTime : ℚ
  error : Option String
  errorType : Option String
deriving Repr, DecidableEq

/-- What happened when the harnessed program was compiled and run once — the
observable outcome `_execute_single_test` reacts to. -/
inductive RunOutcome where
  | compileFailed (message : Option String)
  | ran (exitCode : Int) (stdout stderr : String) (elapsed : ℚ)
  | timedOut
  | raised (message : String)
deriving Repr

/-- Python `round(q, 3)`. -/
def roundTo3 (q : ℚ) : ℚ := (pyRound (q * 1000) : ℚ) / 1000

/-- Python's truthiness-based default `a or b` for strings. -/
def orDefault (a b : String) : String := if a = "" then b else a

/-- The result dict `_execute_single_test` returns for one test case, by case
on the run outcome: compile failure → `compile_error`; nonzero exit →
stderr classified (`_classify_error`); clean exit → three-tier output
comparison against the expected value, `wrong_answer` on mismatch;
`subprocess.TimeoutExpired` → `time_limit_exceeded` with the global timeout
as the recorded time; any other exception → `runtime_error`. -/
def executeSingleTest (tc : TestCaseRec) (outcome : RunOutcome) : ResultEntry :=
  match outcome with
  | .compileFailed msg =>
    { testCaseId := tc.id
      passed := false
      executionTime := 0
      error := some (orDefault (msg.getD "") "Compilation failed")
      errorType := some "compile_error" }
  | .ran exitCode stdout stderr elapsed =>
    let output := pyStripL stdout.data
    let stderrS := pyStripL stderr.data
    if exitCode ≠ 0 then
      { testCaseId := tc.id
        passed := false
        executionTime := roundTo3 elapsed
        error := some (orDefault ⟨stderrS⟩ "Runtime error")
        errorType := some (classifyError ⟨stderrS⟩) }
    else
      let passed := compareOutput ⟨output⟩ tc.expectedOutput
      { testCaseId := tc.id
        passed := passed
        executionTime := roundTo3 elapsed
        error := if passed then none
          else some ("Expected " ++ ⟨pyStr tc.expectedOutput⟩ ++ ", got " ++ ⟨output⟩)
        errorType := if passed then none else some "wrong_answer" }
  | .timedOut =>
    { testCaseId := tc.id
      passed := false
      executionTime := (CODE_EXECUTION_TIMEOUT : ℚ)
      error := some "Time Limit Exceeded"
      errorType := some "time_limit_exceeded" }
  | .raised msg =>
    { testCaseId := tc.id
      passed := false
      executionTime := 0
      error := some msg
      errorType := some "runtime_error" }

/-- The per-test loop of `execute_code` (lines 195-218): one result is
appended per test case — the single-test result, or, if the call raises, a
fallback `runtime_error` entry carrying that test case's id. -/
def executeCodeResults (runTest : TestCaseRec → Except String RunOutcome)
    (tcs : List TestCaseRec) : List ResultEntry :=
  tcs.map (fun tc =>
    match runTest tc with
    | .ok outcome => executeSingleTest tc outcome
    | .error msg =>
      { testCaseId := tc.id
        passed := false
        executionTime := 0
        error := some msg
        errorType := some "runtime_error" })

/-! ### Test result persistence (submission_worker.py, `_evaluate_submission`, lines 149-160) -/

/-- One persisted `test_results` row. -/
structure TestResultRow where
  submissionId : Nat
  testCaseId : Nat
  passed : Bool
  executionTime : ℚ
  errorMessage : Option String
deriving Repr, DecidableEq

/-- The `TestResult` row the worker inserts for one evaluation result. -/
def rowOfResult (sid : Nat) (r : ResultEntry) : TestResultRow :=
  { submissionId := sid
    testCaseId := r.testCaseId
    passed := r.passed
    executionTime := r.executionTime
    errorMessage := r.error }

/-- The worker's persistence step: delete every stored row for this
submission id, then insert one row per result of the new evaluation. -/
def replaceTestResults (rows : List TestResultRow) (sid : Nat)
    (results : List ResultEntry) : List TestResultRow :=
  rows.filter (fun r => !(r.submissionId == sid)) ++ results.map (rowOfResult sid)

/-! ### Harness synthesizers: name resolution (code_executor.py lines 363-389, 443-470, 747-763, 796-820, 842-881) -/

/-- ASCII upper-casing of one character. -/
def pyUpperChar (c : Char) : Char :=
  if 'a' ≤ c ∧ c ≤ 'z' then Char.ofNat (c.toNat - 32) else c

/-- Split a character list on underscores (Python `name.split("_")`,
Java/C# `name.split("_")` over this model's ASCII strings). -/
def splitUnd : List Char → List (List Char)
  | [] => [[]]
  | c :: rest =>
    match splitUnd rest with
    | [] => [[c]]
    | part :: parts =>
      if c = '_' then [] :: part :: parts else (c :: part) :: parts

/-- Python `str.capitalize()`: first character upper-cased, the rest
lower-cased (ASCII model). -/
def pyCapitalize : List Char → List Char
  | [] => []
  | c :: rest => pyUpperChar c :: rest.map pyLowerChar

/-- The executor's `_snake_to_camel` (lines 747-752): unchanged without an
underscore, else head part plus the capitalized tail parts. -/
def pySnakeToCamel (name : String) : String :=
  if ¬ name.data.contains '_' then name
  else
    match splitUnd name.data with
    | [] => name
    | h :: t => ⟨h ++ (t.map pyCapitalize).flatten⟩

/-- The generated Java runner's `__snakeToCamel` (inside
`_create_java_harness`): a flag-driven walk upper-casing the character after
each underscore (it does not lower-case the rest). -/
def javaSnakeToCamelGo (upper : Bool) : List Char → List Char
  | [] => []
  | c :: rest =>
    if c = '_' then javaSnakeToCamelGo true rest
    else if upper then pyUpperChar c :: javaSnakeToCamelGo false rest
    else c :: javaSnakeToCamelGo false rest

/-- The generated Java runner's `__snakeToCamel`. -/
def javaSnakeToCamel (name : String) : String :=
  if name = "" ∨ ¬ name.data.contains '_' then name
  else ⟨javaSnakeToCamelGo false name.data⟩

/-- The generated Java runner's `__candidateMethodNames`: the requested name
then its camel transform, first occurrences kept (`LinkedHashSet`). -/
def javaCandidateMethodNames (requested : String) : List String :=
  if requested = "" then []
  else if javaSnakeToCamel requested = requested then [requested]
  else [requested, javaSnakeToCamel requested]

/-- C# part capitalization (`char.ToUpperInvariant(part[0]) + part.Substring(1)`;
empty parts are skipped by the caller). -/
def csharpCapPart : List Char → List Char
  | [] => []
  | c :: rest => pyUpperChar c :: rest

/-- The generated C# runner's `__SnakeToCamel`. -/
def csharpSnakeToCamel (name : String) : String :=
  if name = "" ∨ ¬ name.data.contains '_' then name
  else
    match splitUnd name.data with
    | [] => name
    | h :: t => ⟨h ++ (t.map csharpCapPart).flatten⟩

/-- The generated C# runner's `__SnakeToPascal`: camel with the first
character upper-cased. -/
def csharpSnakeToPascal (name : String) : String :=
  match (csharpSnakeToCamel name).data with
  | [] => csharpSnakeToCamel name
  | c :: rest => ⟨pyUpperChar c :: rest⟩

/-- Order-preserving deduplication keeping first occurrences, skipping empty
strings (the C# runner's seen-set loop). -/
def dedupNonEmptyKeepFirst (seen : List String) : List String → List String
  | [] => []
  | x :: xs =>
    if x = "" then dedupNonEmptyKeepFirst seen xs
    else if seen.contains x then dedupNonEmptyKeepFirst seen xs
    else x :: dedupNonEmptyKeepFirst (x :: seen) xs

/-- The generated C# runner's `__CandidateMethodNames`: requested, camel and
Pascal transforms, deduplicated in order with empties skipped. -/
def csharpCandidateMethodNames (requested : String) : List String :=
  if requested = "" then []
  else dedupNonEmptyKeepFirst []
    [requested, csharpSnakeToCamel requested, csharpSnakeToPascal requested]

/-- `_resolve_cpp_function_name` (lines 754-763), with the regex probe
`looks_defined` abstracted as an oracle over names: the requested name if it
looks defined, else its camel transform if that differs and looks defined,
else the requested name. -/
def resolveCppFunctionName (looksDefined : String → Bool) (requested : String) : String :=
  if looksDefined requested then requested
  else
    let camel := pySnakeToCamel requested
    if camel ≠ requested ∧ looksDefined camel then camel else requested

/-- A single quote character as a string (kept out of string literals). -/
def sqc : String := ⟨[Char.ofNat 39]⟩

/-- `_create_python_harness` (lines 363-389), the f-string transcribed with
its three interpolation points (`code`, `function_name` three times, and the
JSON-dumped test input): the generated program checks only the verbatim
function name via `dir()`/`globals()`. -/
def createPythonHarness (code functionName inputJson : String) : String :=
  "\nimport json\nimport sys\n\n" ++ code ++
  "\n\nif __name__ == \"__main__\":\n    try:\n        if \"" ++ functionName ++
  "\" in dir() or callable(globals().get(\"" ++ functionName ++
  "\")):\n            test_input = " ++ inputJson ++
  "\n            if isinstance(test_input, list):\n                result = " ++
  functionName ++
  "(*test_input)\n            else:\n                result = " ++ functionName ++
  "(test_input)\n            print(json.dumps(result))\n    except Exception as e:\n        print(f\"ERROR: \x7be\x7d\", file=sys.stderr)\n        sys.exit(1)\n"

/-- `_create_javascript_harness` (lines 796-820): the generated program
checks only the verbatim function name via `typeof`. -/
def createJavascriptHarness (code functionName inputJson : String) : String :=
  "\n" ++ code ++ "\n\nif (typeof " ++ functionName ++ " === " ++ sqc ++
  "function" ++ sqc ++ ") \x7b\n    const testInput = " ++ inputJson ++
  ";\n    try \x7b\n        let result;\n        if (Array.isArray(testInput)) \x7b\n            result = " ++
  functionName ++
  "(...testInput);\n        \x7d else \x7b\n            result = " ++ functionName ++
  "(testInput);\n        \x7d\n        console.log(JSON.stringify(result));\n    \x7d catch (e) \x7b\n        console.error(" ++
  sqc ++ "ERROR:" ++ sqc ++
  ", e.message);\n        process.exit(1);\n    \x7d\n\x7d\n"

/-! ### Submission creation (submission_service.py, `submit_code`, lines 93-108) -/

/-- The submission row fields `submit_code` creates. -/
structure SubmissionRow where
  id : Nat
  userId : Nat
  questionId : String
  language : String
  code : String
  status : String
deriving Repr, DecidableEq

/-- The record-creation step of `submit_code`: a `Submission` with
`status="running"` is added and committed; the database assigns the
autoincrement primary key (modelled as one past the table length, so ids are
1-based). Returns the new table and the refreshed row. -/
def submitCodeCreate (db : List SubmissionRow) (userId : Nat)
    (questionId language code : String) : List SubmissionRow × SubmissionRow :=
  let row : SubmissionRow :=
    { id := db.length + 1
      userId := userId
      questionId := questionId
      language := language
      code := code
      status := "running" }
  (db ++ [row], row)

/-! ### Theorems for the worker claims -/

/-- C2: after an evaluation that raises no unhandled exception, the worker's
terminal status is `timeout` exactly when the primary error type is
`time_limit_exceeded` with zero tests passed, `failed` exactly when it is
`compile_error` or `runtime_error` with zero tests passed, and `completed` in
every other case. -/
theorem worker_final_status_characterization (et : Option String) (p : Nat) :
    (finalStatus et p = "timeout" ↔ (et = some "time_limit_exceeded" ∧ p = 0)) ∧
    (finalStatus et p = "failed" ↔
      ((et = some "compile_error" ∨ et = some "runtime_error") ∧ p = 0)) ∧
    (finalStatus et p = "completed" ↔
      ¬ ((et = some "time_limit_exceeded" ∨ et = some "compile_error" ∨
          et = some "runtime_error") ∧ p = 0)) := by
  unfold finalStatus
  split_ifs with h1 h2
  · refine ⟨⟨fun _ => h1, fun _ => rfl⟩, ⟨fun h => absurd h (by decide), ?_⟩,
      ⟨fun h => absurd h (by decide), ?_⟩⟩
    · rintro ⟨h | h, hp⟩ <;> simp [h1.1] at h
    · intro hn
      exact absurd ⟨Or.inl h1.1, h1.2⟩ hn
  · refine ⟨⟨fun h => absurd h (by decide), fun h => absurd h h1⟩,
      ⟨fun _ => h2, fun _ => rfl⟩, ⟨fun h => absurd h (by decide), ?_⟩⟩
    intro hn
    rcases h2 with ⟨h | h, hp⟩
    · exact absurd ⟨Or.inr (Or.inl h), hp⟩ hn
    · exact absurd ⟨Or.inr (Or.inr h), hp⟩ hn
  · refine ⟨⟨fun h => absurd h (by decide), fun h => absurd h h1⟩,
      ⟨fun h => absurd h (by decide), fun h => absurd h h2⟩,
      ⟨fun _ => ?_, fun _ => rfl⟩⟩
    rintro ⟨h | h | h, hp⟩
    · exact h1 ⟨h, hp⟩
    · exact h2 ⟨Or.inl h, hp⟩
    · exact h2 ⟨Or.inr h, hp⟩

/-- C4: the claim says an unhandled exception during evaluation re-queues the
job with `retry_count` incremented and `error_type = worker_retry` while the
retry budget is not exhausted, and otherwise marks it `failed` with
`error_type = worker_failure` and `completed_at` set. The handler is written
that way, but its first step reads `submission.retry_count`, which is
neither an ORM-mapped column of `Submission` nor an attribute ever assigned
on the instance before the read: the read raises `AttributeError` inside the
except block, so on every input the handler raises and neither the re-queue
nor the `worker_failure` transition ever happens. -/
theorem worker_retry_policy_unreachable :
    ("retry_count" ∈ submissionColumns) = false ∧
    workerAttrReadOk "retry_count" = false ∧
    ∀ (maxRetries now : Nat) (msg : String) (s : SubmissionRec),
      handleWorkerException maxRetries now msg s =
        .error "AttributeError: retry_count" := by
  refine ⟨by decide, by decide, ?_⟩
  intro maxRetries now msg s
  unfold handleWorkerException
  rw [if_neg (by decide)]

/-- C6 counterexample: the claim says a nonzero-exit stderr is classified as
one of `time_limit_exceeded` or `runtime_error` only, any non-timeout text
yielding `runtime_error`; but stderr containing `compile` is classified
`compile_error`, and the claimed keyword `time limit` alone (without
`exceeded`) does NOT yield `time_limit_exceeded`. -/
theorem classify_error_counterexample :
    classifyError "cannot compile module" = "compile_error" ∧
    ("compile_error" : String) ≠ "time_limit_exceeded" ∧
    ("compile_error" : String) ≠ "runtime_error" ∧
    classifyError "time limit reached" = "runtime_error" := by
  refine ⟨by decide, by decide, by decide, by decide⟩

/-- C6 amended: for a nonzero exit code the assigned error type is one of
`time_limit_exceeded`, `compile_error`, `runtime_error`: the (lower-cased)
stderr yields `time_limit_exceeded` exactly when it contains `time limit
exceeded` or `timed out`; otherwise `compile_error` exactly when it contains
`compile`; otherwise `runtime_error`. -/
theorem classify_error_characterization (s : String) :
    (classifyError s = "time_limit_exceeded" ↔
      (containsSub "time limit exceeded" (pyLower s) = true ∨
        containsSub "timed out" (pyLower s) = true)) ∧
    (classifyError s = "compile_error" ↔
      (¬ (containsSub "time limit exceeded" (pyLower s) = true ∨
          containsSub "timed out" (pyLower s) = true) ∧
        containsSub "compile" (pyLower s) = true)) ∧
    (classifyError s = "runtime_error" ↔
      (¬ (containsSub "time limit exceeded" (pyLower s) = true ∨
          containsSub "timed out" (pyLower s) = true) ∧
        containsSub "compile" (pyLower s) = false)) := by
  unfold classifyError
  by_cases h1 : (containsSub "time limit exceeded" (pyLower s) ||
      containsSub "timed out" (pyLower s)) = true
  · rw [if_pos h1]
    rcases Bool.or_eq_true _ _ |>.mp h1 with h | h <;>
      refine ⟨⟨fun _ => ?_, fun _ => rfl⟩,
        ⟨fun hc => absurd hc (by decide), fun hc => absurd ?_ hc.1⟩,
        ⟨fun hc => absurd hc (by decide), fun hc => absurd ?_ hc.1⟩⟩
    · exact Or.inl h
    · exact Or.inl h
    · exact Or.inl h
    · exact Or.inr h
    · exact Or.inr h
    · exact Or.inr h
  · rw [if_neg h1]
    have hno : ¬ (containsSub "time limit exceeded" (pyLower s) = true ∨
        containsSub "timed out" (pyLower s) = true) := by
      intro hc
      exact h1 (Bool.or_eq_true _ _ |>.mpr hc)
    by_cases h2 : containsSub "compile" (pyLower s) = true
    · rw [if_pos h2]
      exact ⟨⟨fun hc => absurd hc (by decide), fun hc => absurd hc hno⟩,
        ⟨fun _ => ⟨hno, h2⟩, fun _ => rfl⟩,
        ⟨fun hc => absurd hc (by decide),
          fun hc => absurd h2 (by rw [hc.2]; decide)⟩⟩
    · rw [if_neg h2]
      have h2f : containsSub "compile" (pyLower s) = false := by
        cases hcv : containsSub "compile" (pyLower s)
        · rfl
        · exact absurd hcv h2
      split_ifs with h3 <;>
        exact ⟨⟨fun hc => absurd hc (by decide), fun hc => absurd hc hno⟩,
          ⟨fun hc => absurd hc (by decide), fun hc => absurd hc.2 (by rw [h2f]; decide)⟩,
          ⟨fun _ => ⟨hno, h2f⟩, fun _ => rfl⟩⟩

/-- Witness for `classify_error_characterization` at a concrete stderr: a
Python traceback is classified as `runtime_error`. -/
theorem classify_error_characterization_witness :
    classifyError "Traceback (most recent call last)" = "runtime_error" :=
  (classify_error_characterization "Traceback (most recent call last)").2.2.mpr
    ⟨by decide, by decide⟩

/-- C7 counterexample: the claim says a test case carrying `timeout_ms` runs
with a wall-clock timeout of exactly `timeout_ms / 1000` seconds (so
`timeout_ms = 50` would time out after roughly 50 ms), but the code clamps the
override to at least 0.1 s: with `timeout_ms = 50` the timeout passed to the
runner is 0.1 s (100 ms), not 0.05 s. -/
theorem timeout_override_counterexample :
    effectiveTimeoutSeconds (CODE_EXECUTION_TIMEOUT : ℚ) (some 50) = 1 / 10 ∧
    (1 / 10 : ℚ) ≠ 50 / 1000 := by
  constructor
  · simp only [effectiveTimeoutSeconds]
    rw [sup_eq_left.mpr (by norm_num)]
  · norm_num

/-- C7 amended: a test case carrying `timeout_ms` runs with wall-clock timeout
`max(0.1, timeout_ms/1000)` seconds instead of the global timeout — equal to
`timeout_ms/1000` only when `timeout_ms ≥ 100`, and clamped to 0.1 s below
that (a 50 ms request runs with a 100 ms timeout); a test case without
`timeout_ms` uses the global configured timeout. -/
theorem timeout_override_clamped (g : ℚ) (ms : Int) :
    (effectiveTimeoutSeconds g none = g) ∧
    ((100 : ℚ) ≤ (ms : ℚ) → effectiveTimeoutSeconds g (some ms) = (ms : ℚ) / 1000) ∧
    ((ms : ℚ) ≤ 100 → effectiveTimeoutSeconds g (some ms) = 1 / 10) := by
  refine ⟨rfl, fun h => ?_, fun h => ?_⟩
  · simp only [effectiveTimeoutSeconds]
    rw [sup_eq_right.mpr (by linarith)]
  · simp only [effectiveTimeoutSeconds]
    rw [sup_eq_left.mpr (by linarith)]

/-- Witness for `timeout_override_clamped`: a 2000 ms override yields a 2 s
timeout, a 50 ms override yields the clamped 0.1 s. -/
theorem timeout_override_clamped_witness :
    effectiveTimeoutSeconds 5 (some 2000) = 2 ∧
    effectiveTimeoutSeconds 5 (some 50) = 1 / 10 := by
  constructor
  · rw [(timeout_override_clamped 5 2000).2.1 (by norm_num)]
    norm_num
  · exact (timeout_override_clamped 5 50).2.2 (by norm_num)

/-- Membership in a Python-style dict assignment: the binding is the new one
or came from the original environment. -/
theorem envSet_mem {env : List (String × String)} {k v a b : String}
    (h : (a, b) ∈ envSet env k v) : (a = k ∧ b = v) ∨ (a, b) ∈ env := by
  unfold envSet at h
  split_ifs at h with hk
  · rcases List.mem_map.mp h with ⟨p, hp, heq⟩
    by_cases hpk : (p.1 == k) = true
    · rw [if_pos hpk] at heq
      exact Or.inl ⟨congrArg Prod.fst heq.symm, congrArg Prod.snd heq.symm⟩
    · rw [if_neg hpk] at heq
      exact Or.inr (heq ▸ hp)
  · rcases List.mem_append.mp h with hp | hp
    · exact Or.inr hp
    · rcases List.mem_singleton.mp hp with heq
      exact Or.inl ⟨congrArg Prod.fst heq, congrArg Prod.snd heq⟩

/-- Every binding produced by `_sanitize_env` has an allow-listed key. -/
theorem sanitizeEnv_key_mem {osEnv : List (String × String)} {k v : String}
    (h : (k, v) ∈ sanitizeEnv osEnv) : k ∈ allowedEnvKeys := by
  unfold sanitizeEnv at h
  rcases List.mem_filterMap.mp h with ⟨a, ha, heq⟩
  split at heq
  · split at heq
    · simp only [Option.some.injEq, Prod.mk.injEq] at heq
      exact heq.1 ▸ ha
    · cases heq
  · cases heq

/-- C10 amended: the compile step's child environment (`_sanitize_env`) holds
only allow-listed keys; the run step's environment holds only allow-listed
keys EXCEPT that a `python` run with a known user id whose per-user directory
exists additionally receives a `PYTHONPATH` binding. -/
theorem child_env_allowlist :
    (∀ (osEnv : List (String × String)) (k v : String),
      (k, v) ∈ sanitizeEnv osEnv → k ∈ allowedEnvKeys) ∧
    (∀ (osEnv : List (String × String)) (lang : String) (uid : Option Nat)
        (ex : Bool) (path k v : String),
      (k, v) ∈ runCodeEnv osEnv lang uid ex path →
        k ∈ allowedEnvKeys ∨
          (k = "PYTHONPATH" ∧ lang = "python" ∧ uid ≠ none ∧ ex = true)) := by
  refine ⟨fun osEnv k v h => sanitizeEnv_key_mem h, ?_⟩
  intro osEnv lang uid ex path k v h
  unfold runCodeEnv at h
  split_ifs at h with hc
  · rcases envSet_mem h with ⟨hk, _⟩ | hmem
    · exact Or.inr ⟨hk, hc⟩
    · exact Or.inl (sanitizeEnv_key_mem hmem)
  · exact Or.inl (sanitizeEnv_key_mem h)

/-- Witness for `child_env_allowlist`: the sanitized binding of `PATH` is
allow-listed, and for a javascript run every binding of the concrete run
environment is allow-listed. -/
theorem child_env_allowlist_witness :
    "PATH" ∈ allowedEnvKeys ∧
    ("HOME" ∈ allowedEnvKeys ∨
      ("HOME" = "PYTHONPATH" ∧ "javascript" = "python" ∧
        (some 3 : Option Nat) ≠ none ∧ true = true)) := by
  constructor
  · exact child_env_allowlist.1 [("PATH", "/usr/bin")] "PATH" "/usr/bin" (by decide)
  · exact child_env_allowlist.2 [("HOME", "/root")] "javascript" (some 3) true
      "/tmp/u3" "HOME" "/root" (by decide)

/-- C10 counterexample: the claim says every child environment holds only
allow-listed keys, but a `python` run with an existing per-user directory
receives `PYTHONPATH`, which is not in the allow-list. -/
theorem child_env_counterexample :
    ("PYTHONPATH", "/tmp/exec/user_1:") ∈
      runCodeEnv [("PATH", "/usr/bin"), ("AWS_SECRET_KEY", "abc")] "python"
        (some 1) true "/tmp/exec/user_1" ∧
    "PYTHONPATH" ∉ allowedEnvKeys := by
  refine ⟨by decide, by decide⟩

/-- Every branch of the single-test executor (and of the per-test loop's
exception fallback) records the test case's own id. -/
theorem executeCodeResults_ids (runTest : TestCaseRec → Except String RunOutcome)
    (tcs : List TestCaseRec) :
    (executeCodeResults runTest tcs).map (fun r => r.testCaseId) =
      tcs.map (fun tc => tc.id) := by
  unfold executeCodeResults
  rw [List.map_map]
  apply List.map_congr_left
  intro tc _
  simp only [Function.comp_apply]
  cases h : runTest tc with
  | error msg => simp [h]
  | ok outcome =>
    simp only [h]
    cases outcome with
    | compileFailed m => rfl
    | timedOut => rfl
    | raised m => rfl
    | ran exitCode stdout stderr elapsed =>
      simp only [executeSingleTest]
      split_ifs <;> rfl

/-- C5: (re)processing a submission deletes all previously persisted rows for
that submission id and inserts exactly one fresh row per test case of the new
evaluation: the persisted rows for the id are exactly the new results (one
per test case, carrying the test cases' ids), rows of other submissions are
untouched, and reprocessing replaces rather than accumulates. -/
theorem test_results_replaced_exactly (rows : List TestResultRow) (sid : Nat)
    (res resPrev : List ResultEntry)
    (runTest : TestCaseRec → Except String RunOutcome) (tcs : List TestCaseRec) :
    ((replaceTestResults rows sid res).filter (fun r => r.submissionId == sid) =
      res.map (rowOfResult sid)) ∧
    ((replaceTestResults rows sid res).filter (fun r => !(r.submissionId == sid)) =
      rows.filter (fun r => !(r.submissionId == sid))) ∧
    ((executeCodeResults runTest tcs).map (fun r => r.testCaseId) =
      tcs.map (fun tc => tc.id)) ∧
    (((replaceTestResults rows sid (executeCodeResults runTest tcs)).filter
        (fun r => r.submissionId == sid)).length = tcs.length) ∧
    (replaceTestResults (replaceTestResults rows sid resPrev) sid res =
      replaceTestResults rows sid res) := by
  have hkeep : ∀ (res' : List ResultEntry),
      (replaceTestResults rows sid res').filter (fun r => r.submissionId == sid) =
        res'.map (rowOfResult sid) := by
    intro res'
    unfold replaceTestResults
    rw [List.filter_append, List.filter_filter, List.filter_map]
    have h1 : ∀ r : TestResultRow,
        ((r.submissionId == sid) && !(r.submissionId == sid)) = false := by
      intro r
      cases h : (r.submissionId == sid) <;> simp [h]
    have h2 : ((fun r => r.submissionId == sid) ∘ rowOfResult sid) = fun _ => true := by
      funext r
      simp [rowOfResult]
    rw [List.filter_congr (fun r _ => h1 r), List.filter_false, h2, List.filter_true,
      List.nil_append]
  have hdrop : ∀ (res' : List ResultEntry),
      (replaceTestResults rows sid res').filter (fun r => !(r.submissionId == sid)) =
        rows.filter (fun r => !(r.submissionId == sid)) := by
    intro res'
    unfold replaceTestResults
    rw [List.filter_append, List.filter_filter, List.filter_map]
    have h1 : ∀ r : TestResultRow,
        ((!(r.submissionId == sid)) && !(r.submissionId == sid)) = !(r.submissionId == sid) := by
      intro r
      cases h : (r.submissionId == sid) <;> simp [h]
    have h2 : ((fun r => !(r.submissionId == sid)) ∘ rowOfResult sid) = fun _ => false := by
      funext r
      simp [rowOfResult]
    rw [List.filter_congr (fun r _ => h1 r), h2, List.filter_false, List.map_nil,
      List.append_nil]
  refine ⟨hkeep res, hdrop res, executeCodeResults_ids runTest tcs, ?_, ?_⟩
  · rw [hkeep (executeCodeResults runTest tcs), List.length_map]
    have := congrArg List.length (executeCodeResults_ids runTest tcs)
    simpa using this
  · show replaceTestResults (replaceTestResults rows sid resPrev) sid res =
      replaceTestResults rows sid res
    conv_lhs => rw [replaceTestResults]
    rw [hdrop resPrev]
    rfl

/-- C9: the submit path's record creation, evaluated at a concrete submission
(the failing input for the claim): the row is created with status `running`,
not `queued`, though the persisted id is indeed strictly positive. -/
theorem submit_code_creates_running_not_queued :
    ((submitCodeCreate [] 7 "question1" "python" "print(42)").2.status = "running") ∧
    ((submitCodeCreate [] 7 "question1" "python" "print(42)").2.status ≠ "queued") ∧
    (∀ (db : List SubmissionRow) (uid : Nat) (qid lang code : String),
      0 < (submitCodeCreate db uid qid lang code).2.id ∧
      (submitCodeCreate db uid qid lang code).2.status = "running") := by
  refine ⟨rfl, by decide, fun db uid qid lang code => ⟨Nat.succ_pos _, rfl⟩⟩

set_option maxRecDepth 40000 in
/-- C8 counterexample: the camel transform of `solve_it` is `solveIt`, and the
Python and JavaScript harnesses synthesized for requested name `solve_it`
reference only the verbatim name — the generated program text does not
contain `solveIt` at all, so it cannot try the camelCase transform before
giving up. -/
theorem harness_camel_fallback_counterexample :
    pySnakeToCamel "solve_it" = "solveIt" ∧
    containsSub "solve_it" (createPythonHarness "pass" "solve_it" "[1]") = true ∧
    containsSub "solveIt" (createPythonHarness "pass" "solve_it" "[1]") = false ∧
    containsSub "solve_it" (createJavascriptHarness "pass" "solve_it" "[1]") = true ∧
    containsSub "solveIt" (createJavascriptHarness "pass" "solve_it" "[1]") = false := by
  refine ⟨by decide, by decide, by decide, by decide, by decide⟩

/-- Membership survives the C# runner's order-preserving deduplication when
the element is non-empty and not yet seen. -/
theorem dedupNonEmptyKeepFirst_mem {x : String} :
    ∀ (l : List String) (seen : List String),
      x ∈ l → x ≠ "" → x ∉ seen → x ∈ dedupNonEmptyKeepFirst seen l := by
  intro l
  induction l with
  | nil => intro seen h; cases h
  | cons y ys ih =>
    intro seen hmem hne hseen
    unfold dedupNonEmptyKeepFirst
    rcases List.mem_cons.mp hmem with rfl | htail
    · rw [if_neg hne]
      by_cases hy : seen.contains x = true
      · exact absurd (by simpa using hy : x ∈ seen) hseen
      · rw [if_neg hy]
        exact List.mem_cons_self x _
    · by_cases hy0 : y = ""
      · rw [if_pos hy0]
        exact ih seen htail hne hseen
      · rw [if_neg hy0]
        by_cases hy : seen.contains y = true
        · rw [if_pos hy]
          exact ih seen htail hne hseen
        · rw [if_neg hy]
          by_cases hxy : x = y
          · exact hxy ▸ List.mem_cons_self x _
          · refine List.mem_cons_of_mem y (ih (y :: seen) htail hne ?_)
            intro hx
            rcases List.mem_cons.mp hx with h | h
            · exact hxy h
            · exact hseen h

set_option maxRecDepth 40000 in
/-- C8 amended: the Java, C# and C++ synthesizers do try the name-convention
transforms — the Java candidate list holds the requested name and its
camelCase transform, the C# list additionally the PascalCase transform, and
the C++ resolver falls back to the camel transform when only it looks
defined — but the Python and JavaScript harnesses check only the verbatim
name (their synthesized programs never mention the transform). -/
theorem harness_camel_fallback_amended :
    (∀ req : String, req ≠ "" →
      req ∈ javaCandidateMethodNames req ∧
      javaSnakeToCamel req ∈ javaCandidateMethodNames req) ∧
    (∀ req : String, req ≠ "" →
      req ∈ csharpCandidateMethodNames req ∧
      (csharpSnakeToCamel req ≠ "" →
        csharpSnakeToCamel req ∈ csharpCandidateMethodNames req) ∧
      (csharpSnakeToPascal req ≠ "" →
        csharpSnakeToPascal req ∈ csharpCandidateMethodNames req)) ∧
    (∀ (looksDefined : String → Bool) (req : String),
      looksDefined req = false → looksDefined (pySnakeToCamel req) = true →
      pySnakeToCamel req ≠ req →
      resolveCppFunctionName looksDefined req = pySnakeToCamel req) ∧
    containsSub "solveIt" (createPythonHarness "pass" "solve_it" "[1]") = false ∧
    containsSub "solveIt" (createJavascriptHarness "pass" "solve_it" "[1]") = false := by
  refine ⟨?_, ?_, ?_, by decide, by decide⟩
  · intro req hreq
    unfold javaCandidateMethodNames
    rw [if_neg hreq]
    by_cases hc : javaSnakeToCamel req = req
    · rw [if_pos hc, hc]
      exact ⟨List.mem_singleton_self req, List.mem_singleton_self req⟩
    · rw [if_neg hc]
      exact ⟨List.mem_cons_self _ _, List.mem_cons_of_mem _ (List.mem_cons_self _ _)⟩
  · intro req hreq
    unfold csharpCandidateMethodNames
    rw [if_neg hreq]
    refine ⟨?_, fun hc => ?_, fun hp => ?_⟩
    · exact dedupNonEmptyKeepFirst_mem _ [] (List.mem_cons_self _ _) hreq
        (List.not_mem_nil req)
    · exact dedupNonEmptyKeepFirst_mem _ []
        (List.mem_cons_of_mem _ (List.mem_cons_self _ _)) hc
        (List.not_mem_nil _)
    · exact dedupNonEmptyKeepFirst_mem _ []
        (List.mem_cons_of_mem _ (List.mem_cons_of_mem _ (List.mem_cons_self _ _))) hp
        (List.not_mem_nil _)
  · intro looksDefined req hd hc hne
    unfold resolveCppFunctionName
    rw [if_neg (by rw [hd]; exact Bool.false_ne_true)]
    simp only [if_pos (And.intro hne hc)]

/-- Witness for `harness_camel_fallback_amended` at requested name
`solve_it`: its camel transform is a Java candidate, and the C++ resolver
picks the camel transform when only `solveIt` is defined in the source. -/
theorem harness_camel_fallback_amended_witness :
    javaSnakeToCamel "solve_it" ∈ javaCandidateMethodNames "solve_it" ∧
    resolveCppFunctionName (fun s => s == "solveIt") "solve_it" =
      pySnakeToCamel "solve_it" := by
  constructor
  · exact (harness_camel_fallback_amended.1 "solve_it" (by decide)).2
  · exact harness_camel_fallback_amended.2.2.1 (fun s => s == "solveIt") "solve_it"
      (by decide) (by decide) (by decide)

/-! ### Round-trip lemmas for the JSON model -/

/-- Characters differ when their code points differ. -/
theorem char_ne_of_toNat_ne {c d : Char} (h : c.toNat ≠ d.toNat) : c ≠ d :=
  fun he => h (congrArg Char.toNat he)

/-- A character whose code point lies in `[lo, hi]` differs from any
character whose code point lies outside. -/
theorem char_ne_of_range {c : Char} {lo hi : Nat} (h1 : lo ≤ c.toNat)
    (h2 : c.toNat ≤ hi) (d : Char) (hd : d.toNat < lo ∨ hi < d.toNat) : c ≠ d := by
  intro he
  subst he
  omega

/-- The digit test in terms of code points. -/
theorem isDigitC_iff {c : Char} : isDigitC c = true ↔ 48 ≤ c.toNat ∧ c.toNat ≤ 57 := by
  simp [isDigitC]

/-- The decimal digit characters are digits. -/
theorem digitChar_isDigitC : ∀ d, d < 10 → isDigitC (digitChar d) = true := by decide

/-- Code point of a decimal digit character. -/
theorem digitChar_toNat : ∀ d, d < 10 → (digitChar d).toNat = 48 + d := by decide

/-- `takeDigits` consumes exactly a digit block followed by a non-digit,
folding up its value and counting its length. -/
theorem takeDigits_append (ds : List Char) :
    ∀ (acc cnt : Nat) (rest : List Char),
      ds.all isDigitC = true →
      (∀ c t, rest = c :: t → isDigitC c = false) →
      takeDigits (ds ++ rest) acc cnt =
        (ds.foldl (fun a c => a * 10 + (c.toNat - 48)) acc, cnt + ds.length, rest) := by
  induction ds with
  | nil =>
    intro acc cnt rest _ hrest
    cases rest with
    | nil => simp [takeDigits]
    | cons c t =>
      simp only [List.nil_append, takeDigits, hrest c t rfl, Bool.false_eq_true,
        if_false, List.foldl_nil, List.length_nil, Nat.add_zero]
  | cons d ds ih =>
    intro acc cnt rest hall hrest
    simp only [List.all_cons, Bool.and_eq_true] at hall
    simp only [List.cons_append, takeDigits, if_pos hall.1, List.append_eq]
    rw [ih _ _ _ hall.2 hrest]
    simp only [List.foldl_cons, List.length_cons]
    refine congrArg _ (congrArg (fun k => (k, rest)) ?_)
    omega

/-- Value computed by the fueled digit renderer, with accumulator. -/
theorem natDigitsAux_val (fuel : Nat) :
    ∀ n acc, n ≤ fuel →
      (natDigitsAux fuel n).reverse.foldl (fun a c => a * 10 + (c.toNat - 48)) acc =
        acc * 10 ^ (natDigitsAux fuel n).length + n := by
  induction fuel with
  | zero =>
    intro n acc h
    interval_cases n
    simp [natDigitsAux]
  | succ f ih =>
    intro n acc h
    cases n with
    | zero => simp [natDigitsAux]
    | succ m =>
      have hdiv : (m + 1) / 10 ≤ f := by
        have := Nat.div_lt_self (Nat.succ_pos m) (by norm_num : 1 < 10)
        omega
      have hmod : (m + 1) % 10 < 10 := Nat.mod_lt _ (by norm_num)
      rw [show natDigitsAux (f + 1) (m + 1) =
        digitChar ((m + 1) % 10) :: natDigitsAux f ((m + 1) / 10) from rfl]
      rw [List.reverse_cons, List.foldl_append, ih _ acc hdiv]
      simp only [List.foldl_cons, List.foldl_nil, List.length_cons,
        digitChar_toNat _ hmod]
      rw [pow_succ, ← mul_assoc]
      have hdm := Nat.div_add_mod (m + 1) 10
      set A := acc * 10 ^ (natDigitsAux f ((m + 1) / 10)).length with hA
      omega

/-- The fueled digit renderer emits only digits. -/
theorem natDigitsAux_all (fuel : Nat) : ∀ n, (natDigitsAux fuel n).all isDigitC = true := by
  induction fuel with
  | zero => intro n; cases n <;> rfl
  | succ f ih =>
    intro n
    cases n with
    | zero => rfl
    | succ m =>
      rw [show natDigitsAux (f + 1) (m + 1) =
        digitChar ((m + 1) % 10) :: natDigitsAux f ((m + 1) / 10) from rfl]
      simp only [List.all_cons, Bool.and_eq_true]
      exact ⟨digitChar_isDigitC _ (Nat.mod_lt _ (by norm_num)), ih _⟩

/-- Digit count bound of the fueled renderer. -/
theorem natDigitsAux_len (fuel : Nat) :
    ∀ n w, n ≤ fuel → n < 10 ^ w → (natDigitsAux fuel n).length ≤ w := by
  induction fuel with
  | zero =>
    intro n w h _
    interval_cases n
    simp [natDigitsAux]
  | succ f ih =>
    intro n w h hw
    cases n with
    | zero => simp [natDigitsAux]
    | succ m =>
      cases w with
      | zero => simp at hw
      | succ w' =>
        rw [show natDigitsAux (f + 1) (m + 1) =
          digitChar ((m + 1) % 10) :: natDigitsAux f ((m + 1) / 10) from rfl]
        simp only [List.length_cons]
        have h1 : (m + 1) / 10 ≤ f := by
          have := Nat.div_lt_self (Nat.succ_pos m) (by norm_num : 1 < 10)
          omega
        have h2 : (m + 1) / 10 < 10 ^ w' := by
          rw [Nat.div_lt_iff_lt_mul (by norm_num : 0 < 10)]
          calc m + 1 < 10 ^ (w' + 1) := hw
            _ = 10 ^ w' * 10 := by rw [pow_succ]
        have := ih _ w' h1 h2
        omega

/-- `natToDigits` emits only digits. -/
theorem natToDigits_all (n : Nat) : (natToDigits n).all isDigitC = true := by
  unfold natToDigits
  split_ifs
  · decide
  · rw [List.all_reverse]
    exact natDigitsAux_all n n

/-- `natToDigits` is nonempty. -/
theorem natToDigits_ne_nil (n : Nat) : natToDigits n ≠ [] := by
  unfold natToDigits
  split_ifs with h
  · simp
  · intro hc
    rw [List.reverse_eq_nil_iff] at hc
    cases n with
    | zero => exact h rfl
    | succ m =>
      rw [show natDigitsAux (m + 1) (m + 1) =
        digitChar ((m + 1) % 10) :: natDigitsAux m ((m + 1) / 10) from rfl] at hc
      cases hc

/-- Value of `natToDigits`, with accumulator. -/
theorem natToDigits_val (n : Nat) (acc : Nat) :
    (natToDigits n).foldl (fun a c => a * 10 + (c.toNat - 48)) acc =
      acc * 10 ^ (natToDigits n).length + n := by
  unfold natToDigits
  split_ifs with h
  · subst h
    simp [List.foldl_cons]
  · rw [List.length_reverse]
    exact natDigitsAux_val n n acc le_rfl

/-- Digit count bound of `natToDigits`. -/
theorem natToDigits_len (n w : Nat) (hw : 0 < w) (h : n < 10 ^ w) :
    (natToDigits n).length ≤ w := by
  unfold natToDigits
  split_ifs
  · simpa using hw
  · rw [List.length_reverse]
    exact natDigitsAux_len n n w le_rfl h

/-- Folding zeros scales the accumulator. -/
theorem foldl_zeros (k : Nat) : ∀ acc : Nat,
    (List.replicate k '0').foldl (fun a c => a * 10 + (c.toNat - 48)) acc =
      acc * 10 ^ k := by
  induction k with
  | zero => intro acc; simp
  | succ j ih =>
    intro acc
    rw [List.replicate_succ, List.foldl_cons, ih]
    have : ('0' : Char).toNat = 48 := by decide
    rw [this, pow_succ]
    ring_nf

/-- The padded fraction has exactly `width` characters. -/
theorem natPad_len (v w : Nat) (hw : 0 < w) (hv : v < 10 ^ w) :
    (natPad v w).length = w := by
  unfold natPad
  rw [List.length_append, List.length_replicate]
  have := natToDigits_len v w hw hv
  omega

/-- The padded fraction is all digits. -/
theorem natPad_all (v w : Nat) : (natPad v w).all isDigitC = true := by
  unfold natPad
  rw [List.all_append, Bool.and_eq_true]
  constructor
  · rw [List.all_eq_true]
    intro c hc
    rw [List.eq_of_mem_replicate hc]
    decide
  · exact natToDigits_all v

/-- Value folded from the padded fraction. -/
theorem natPad_val (v w : Nat) (hw : 0 < w) (hv : v < 10 ^ w) (acc : Nat) :
    (natPad v w).foldl (fun a c => a * 10 + (c.toNat - 48)) acc = acc * 10 ^ w + v := by
  unfold natPad
  rw [List.foldl_append, foldl_zeros, natToDigits_val, mul_assoc, ← pow_add,
    Nat.sub_add_cancel (natToDigits_len v w hw hv)]

/-- A safe trailing input, by cases: its head (if any) is not a digit, dot or
exponent marker. -/
theorem safeRest_facts {rest : List Char} (h : safeRestB rest = true) :
    ∀ c t, rest = c :: t →
      isDigitC c = false ∧ c ≠ '.' ∧ c ≠ 'e' ∧ c ≠ 'E' := by
  intro c t hr
  subst hr
  simp only [safeRestB, numCont, Bool.not_eq_eq_eq_not, Bool.not_true,
    Bool.or_eq_false_iff, decide_eq_false_iff_not] at h
  exact ⟨h.1.1.1, h.1.1.2, h.1.2, h.2⟩

/-- `splitSign` on a list not starting with a sign. -/
theorem splitSign_no_sign {ap : Bool} {cs : List Char}
    (h : ∀ c t, cs = c :: t → c ≠ '-' ∧ c ≠ '+') :
    splitSign ap cs = (false, cs) := by
  cases cs with
  | nil => rfl
  | cons c t =>
    have := h c t rfl
    simp [splitSign, this.1, this.2]

/-- `splitSign` on a leading minus. -/
theorem splitSign_minus (ap : Bool) (t : List Char) :
    splitSign ap ('-' :: t) = (true, t) := by
  simp [splitSign]

/-- `splitFrac` on a safe remainder finds no fraction. -/
theorem splitFrac_safe {rest : List Char} (h : safeRestB rest = true) :
    splitFrac rest = (false, 0, 0, rest) := by
  cases rest with
  | nil => rfl
  | cons c t =>
    have := safeRest_facts h c t rfl
    simp [splitFrac, this.2.1]

/-- `splitExp` on a safe remainder finds no exponent. -/
theorem splitExp_safe {rest : List Char} (h : safeRestB rest = true) :
    splitExp rest = (false, 0, 0, rest) := by
  cases rest with
  | nil => rfl
  | cons c t =>
    have := safeRest_facts h c t rfl
    simp [splitExp, this.2.2.1, this.2.2.2]

/-- `splitFrac` on a leading dot. -/
theorem splitFrac_dot (t : List Char) :
    splitFrac ('.' :: t) =
      (true, (takeDigits t 0 0).1, (takeDigits t 0 0).2.1, (takeDigits t 0 0).2.2) := by
  simp [splitFrac]

/-- A digit character is not a sign, structural marker or whitespace. -/
theorem digit_char_ne {c : Char} (h : isDigitC c = true) :
    jsonWs c = false ∧ pySpace c = false ∧ c ≠ '-' ∧ c ≠ '+' ∧ c ≠ '.' ∧
    c ≠ 'e' ∧ c ≠ 'E' ∧ c ≠ ']' ∧ c ≠ ',' ∧ c ≠ '"' ∧ c ≠ 'n' ∧ c ≠ 't' ∧
    c ≠ 'f' ∧ c ≠ '[' ∧ c ≠ lbrace ∧ c ≠ rbrace ∧ c ≠ ':' := by
  obtain ⟨h1, h2⟩ := isDigitC_iff.mp h
  refine ⟨?_, ?_, ?_, ?_, ?_, ?_, ?_, ?_, ?_, ?_, ?_, ?_, ?_, ?_, ?_, ?_, ?_⟩
  · simp only [jsonWs, Bool.or_eq_false_iff, decide_eq_false_iff_not]
    exact ⟨⟨⟨char_ne_of_range h1 h2 ' ' (by decide), char_ne_of_range h1 h2 '\t' (by decide)⟩,
      char_ne_of_range h1 h2 '\n' (by decide)⟩, char_ne_of_range h1 h2 '\r' (by decide)⟩
  · simp only [pySpace, Bool.or_eq_false_iff, decide_eq_false_iff_not]
    refine ⟨⟨⟨⟨⟨char_ne_of_range h1 h2 ' ' (by decide), char_ne_of_range h1 h2 '\t' (by decide)⟩,
      char_ne_of_range h1 h2 '\n' (by decide)⟩, char_ne_of_range h1 h2 '\r' (by decide)⟩, ?_⟩, ?_⟩
    · omega
    · omega
  · exact char_ne_of_range h1 h2 '-' (by decide)
  · exact char_ne_of_range h1 h2 '+' (by decide)
  · exact char_ne_of_range h1 h2 '.' (by decide)
  · exact char_ne_of_range h1 h2 'e' (by decide)
  · exact char_ne_of_range h1 h2 'E' (by decide)
  · exact char_ne_of_range h1 h2 ']' (by decide)
  · exact char_ne_of_range h1 h2 ',' (by decide)
  · exact char_ne_of_range h1 h2 '"' (by decide)
  · exact char_ne_of_range h1 h2 'n' (by decide)
  · exact char_ne_of_range h1 h2 't' (by decide)
  · exact char_ne_of_range h1 h2 'f' (by decide)
  · exact char_ne_of_range h1 h2 '[' (by decide)
  · exact char_ne_of_range h1 h2 lbrace (by decide)
  · exact char_ne_of_range h1 h2 rbrace (by decide)
  · exact char_ne_of_range h1 h2 ':' (by decide)

/-- Parsing the serialization of an integer (followed by a safe remainder)
returns exactly that integer. -/
theorem parseNum_serInt (n : Int) (rest : List Char) (hrest : safeRestB rest = true) :
    parseNum (serInt n ++ rest) = some (.jint n, rest) := by
  have hdig : ∀ (k : Nat),
      takeDigits (natToDigits k ++ rest) 0 0 = (k, (natToDigits k).length, rest) := by
    intro k
    rw [takeDigits_append _ _ _ _ (natToDigits_all k)
      (fun c t ht => (safeRest_facts hrest c t ht).1)]
    rw [natToDigits_val]
    simp
  have hlen : ∀ (k : Nat), (natToDigits k).length ≠ 0 := by
    intro k hc
    exact natToDigits_ne_nil k (List.length_eq_zero.mp hc)
  cases n with
  | ofNat k =>
    have hhead : ∀ c t, natToDigits k ++ rest = c :: t → c ≠ '-' ∧ c ≠ '+' := by
      intro c t ht
      obtain ⟨d, ds, hds⟩ := List.exists_cons_of_ne_nil (natToDigits_ne_nil k)
      rw [hds, List.cons_append] at ht
      injection ht with hcd _
      have hd : isDigitC d = true := by
        have := natToDigits_all k
        rw [hds, List.all_cons, Bool.and_eq_true] at this
        exact this.1
      exact hcd ▸ ⟨(digit_char_ne hd).2.2.1, (digit_char_ne hd).2.2.2.1⟩
    simp only [parseNum, serInt]
    rw [splitSign_no_sign hhead]
    simp only [hdig k]
    rw [if_neg (hlen k)]
    simp only [splitFrac_safe hrest, splitExp_safe hrest]
    norm_num
    rfl
  | negSucc k =>
    simp only [parseNum, serInt, List.cons_append]
    rw [splitSign_minus]
    simp only [hdig (k + 1)]
    rw [if_neg (hlen (k + 1))]
    simp only [splitFrac_safe hrest, splitExp_safe hrest]
    have : intSign true ((k : Nat) + 1) = Int.negSucc k := by
      simp [intSign, Int.negSucc_eq]
    norm_num [this]

/-- Parsing the serialization of a model float (followed by a safe remainder)
returns exactly that float. -/
theorem parseNum_serFloat (m : Int) (e : Nat) (rest : List Char)
    (hrest : safeRestB rest = true) :
    parseNum (serFloat m e ++ rest) = some (.jfloat m e, rest) := by
  have hPpos : 0 < 10 ^ (e + 1) := pow_pos (by norm_num) _
  have hfp : m.natAbs % 10 ^ (e + 1) < 10 ^ (e + 1) := Nat.mod_lt _ hPpos
  have hdigits : takeDigits ((natToDigits (m.natAbs / 10 ^ (e + 1))) ++
      ('.' :: (natPad (m.natAbs % 10 ^ (e + 1)) (e + 1) ++ rest))) 0 0 =
      (m.natAbs / 10 ^ (e + 1), (natToDigits (m.natAbs / 10 ^ (e + 1))).length,
        '.' :: (natPad (m.natAbs % 10 ^ (e + 1)) (e + 1) ++ rest)) := by
    rw [takeDigits_append _ _ _ _ (natToDigits_all _)
      (fun c t ht => by cases ht; decide)]
    rw [natToDigits_val]
    try simp
  have hfrac : takeDigits (natPad (m.natAbs % 10 ^ (e + 1)) (e + 1) ++ rest) 0 0 =
      (m.natAbs % 10 ^ (e + 1), e + 1, rest) := by
    rw [takeDigits_append _ _ _ _ (natPad_all _ _)
      (fun c t ht => (safeRest_facts hrest c t ht).1)]
    rw [natPad_val _ _ (Nat.succ_pos e) hfp]
    simp [natPad_len _ _ (Nat.succ_pos e) hfp]
  have hilen : (natToDigits (m.natAbs / 10 ^ (e + 1))).length ≠ 0 := by
    intro hc
    exact natToDigits_ne_nil _ (List.length_eq_zero.mp hc)
  have hmant : m.natAbs / 10 ^ (e + 1) * 10 ^ (e + 1) + m.natAbs % 10 ^ (e + 1) =
      m.natAbs := Nat.div_add_mod' _ _
  have hmk : ∀ (mv x : Int), x = -(1 + (e : Int)) → mkFloat mv x = .jfloat mv e := by
    intro mv x hx
    subst hx
    unfold mkFloat
    rw [if_pos (by omega)]
    congr 1
    omega
  by_cases hm : m < 0
  · have hser : serFloat m e ++ rest = '-' :: ((natToDigits (m.natAbs / 10 ^ (e + 1))) ++
        ('.' :: (natPad (m.natAbs % 10 ^ (e + 1)) (e + 1) ++ rest))) := by
      unfold serFloat
      rw [if_pos hm]
      simp [List.append_assoc, List.cons_append]
    rw [hser]
    simp only [parseNum, splitSign_minus, hdigits]
    rw [if_neg hilen]
    simp only [splitFrac_dot, hfrac, splitExp_safe hrest]
    norm_num
    rw [hmant]
    have hsgn : intSign true m.natAbs = m := by
      unfold intSign
      rw [if_pos rfl]
      omega
    rw [hsgn]
    exact hmk m _ (by ring)
  · have hhead : ∀ c t,
        (natToDigits (m.natAbs / 10 ^ (e + 1))) ++
          ('.' :: (natPad (m.natAbs % 10 ^ (e + 1)) (e + 1) ++ rest)) = c :: t →
          c ≠ '-' ∧ c ≠ '+' := by
      intro c t ht
      obtain ⟨d, ds, hds⟩ := List.exists_cons_of_ne_nil
        (natToDigits_ne_nil (m.natAbs / 10 ^ (e + 1)))
      rw [hds, List.cons_append] at ht
      injection ht with hcd _
      have hd : isDigitC d = true := by
        have := natToDigits_all (m.natAbs / 10 ^ (e + 1))
        rw [hds, List.all_cons, Bool.and_eq_true] at this
        exact this.1
      exact hcd ▸ ⟨(digit_char_ne hd).2.2.1, (digit_char_ne hd).2.2.2.1⟩
    have hser : serFloat m e ++ rest = (natToDigits (m.natAbs / 10 ^ (e + 1))) ++
        ('.' :: (natPad (m.natAbs % 10 ^ (e + 1)) (e + 1) ++ rest)) := by
      unfold serFloat
      rw [if_neg hm]
      simp [List.append_assoc, List.cons_append]
    rw [hser]
    simp only [parseNum, splitSign_no_sign hhead, hdigits]
    rw [if_neg hilen]
    simp only [splitFrac_dot, hfrac, splitExp_safe hrest]
    norm_num
    rw [hmant]
    have hsgn : intSign false m.natAbs = m := by
      unfold intSign
      rw [if_neg (by simp)]
      omega
    rw [hsgn]
    exact hmk m _ (by ring)

/-- Decoding inverts the `\u00XX` encoding of a control character. -/
theorem decodeHex_escape : ∀ n, n < 32 →
    decodeHex4 '0' '0' (hexDigitChar (n / 16)) (hexDigitChar (n % 16)) =
      some (Char.ofNat n) := by decide


/-- String-body parsing at a closing quote. -/
theorem psb_quote (rest acc : List Char) :
    parseStrBody ('"' :: rest) acc = some (⟨acc.reverse⟩, rest) := by
  rw [parseStrBody.eq_def]
  simp

/-- String-body parsing of an escaped quote. -/
theorem psb_esc_quote (t acc : List Char) :
    parseStrBody ('\\' :: '"' :: t) acc = parseStrBody t ('"' :: acc) := by
  rw [parseStrBody.eq_def]
  simp

/-- String-body parsing of an escaped backslash. -/
theorem psb_esc_back (t acc : List Char) :
    parseStrBody ('\\' :: '\\' :: t) acc = parseStrBody t ('\\' :: acc) := by
  rw [parseStrBody.eq_def]
  simp

/-- String-body parsing of an escaped newline. -/
theorem psb_esc_n (t acc : List Char) :
    parseStrBody ('\\' :: 'n' :: t) acc = parseStrBody t ('\n' :: acc) := by
  rw [parseStrBody.eq_def]
  simp

/-- String-body parsing of an escaped carriage return. -/
theorem psb_esc_r (t acc : List Char) :
    parseStrBody ('\\' :: 'r' :: t) acc = parseStrBody t ('\r' :: acc) := by
  rw [parseStrBody.eq_def]
  simp

/-- String-body parsing of an escaped tab. -/
theorem psb_esc_t (t acc : List Char) :
    parseStrBody ('\\' :: 't' :: t) acc = parseStrBody t ('\t' :: acc) := by
  rw [parseStrBody.eq_def]
  simp

/-- String-body parsing of an escaped backspace. -/
theorem psb_esc_b (t acc : List Char) :
    parseStrBody ('\\' :: 'b' :: t) acc = parseStrBody t (Char.ofNat 8 :: acc) := by
  rw [parseStrBody.eq_def]
  simp

/-- String-body parsing of an escaped form feed. -/
theorem psb_esc_f (t acc : List Char) :
    parseStrBody ('\\' :: 'f' :: t) acc = parseStrBody t (Char.ofNat 12 :: acc) := by
  rw [parseStrBody.eq_def]
  simp

/-- String-body parsing of a `\uXXXX` escape. -/
theorem psb_esc_u (t acc : List Char) (a b c d : Char) :
    parseStrBody ('\\' :: 'u' :: a :: b :: c :: d :: t) acc =
      (match decodeHex4 a b c d with
       | some ch => parseStrBody t (ch :: acc)
       | none => none) := by
  rw [parseStrBody.eq_def]
  simp

/-- String-body parsing of an ordinary (unescaped, non-control) character. -/
theorem psb_other {c : Char} (t acc : List Char) (h1 : ¬ c = '"')
    (h2 : ¬ c = '\\') (h8 : ¬ c.toNat < 32) :
    parseStrBody (c :: t) acc = parseStrBody t (c :: acc) := by
  rw [parseStrBody.eq_def]
  dsimp only
  rw [if_neg h1, if_neg h2, if_neg h8]

/-- Parsing a string body inverts the escape encoding: the escaped characters
followed by a closing quote and arbitrary remainder yield the original
characters appended to the accumulator. -/
theorem parseStrBody_escChars (s : List Char) :
    ∀ (acc rest : List Char),
      parseStrBody (escChars s ++ '"' :: rest) acc =
        some (⟨acc.reverse ++ s⟩, rest) := by
  induction s with
  | nil =>
    intro acc rest
    show parseStrBody ('"' :: rest) acc = _
    rw [psb_quote]
    simp
  | cons c cs ih =>
    intro acc rest
    show parseStrBody ((escChar c ++ escChars cs) ++ '"' :: rest) acc =
      some (⟨acc.reverse ++ c :: cs⟩, rest)
    have hgoal : ∀ t : List Char, t = c :: acc →
        some ((⟨(t).reverse ++ cs⟩ : String), rest) =
          some ((⟨acc.reverse ++ c :: cs⟩ : String), rest) := by
      intro t ht
      subst ht
      rw [List.reverse_cons, List.append_assoc]
      rfl
    by_cases h1 : c = '"'
    · subst h1
      rw [show escChar '"' = ['\\', '"'] from by decide]
      simp only [List.cons_append, List.nil_append, List.append_assoc]
      rw [psb_esc_quote, ih]
      exact hgoal _ rfl
    · by_cases h2 : c = '\\'
      · subst h2
        rw [show escChar '\\' = ['\\', '\\'] from by decide]
        simp only [List.cons_append, List.nil_append, List.append_assoc]
        rw [psb_esc_back, ih]
        exact hgoal _ rfl
      · by_cases h3 : c = '\n'
        · subst h3
          rw [show escChar '\n' = ['\\', 'n'] from by decide]
          simp only [List.cons_append, List.nil_append, List.append_assoc]
          rw [psb_esc_n, ih]
          exact hgoal _ rfl
        · by_cases h4 : c = '\r'
          · subst h4
            rw [show escChar '\r' = ['\\', 'r'] from by decide]
            simp only [List.cons_append, List.nil_append, List.append_assoc]
            rw [psb_esc_r, ih]
            exact hgoal _ rfl
          · by_cases h5 : c = '\t'
            · subst h5
              rw [show escChar '\t' = ['\\', 't'] from by decide]
              simp only [List.cons_append, List.nil_append, List.append_assoc]
              rw [psb_esc_t, ih]
              exact hgoal _ rfl
            · by_cases h6 : c.toNat = 8
              · have hc8 : Char.ofNat 8 = c := by
                  rw [← h6, Char.ofNat_toNat]
                have hesc : escChar c = ['\\', 'b'] := by
                  unfold escChar
                  rw [if_neg h1, if_neg h2, if_neg h3, if_neg h4, if_neg h5, if_pos h6]
                rw [hesc]
                simp only [List.cons_append, List.nil_append, List.append_assoc]
                rw [psb_esc_b, hc8, ih]
                exact hgoal _ rfl
              · by_cases h7 : c.toNat = 12
                · have hc12 : Char.ofNat 12 = c := by
                    rw [← h7, Char.ofNat_toNat]
                  have hesc : escChar c = ['\\', 'f'] := by
                    unfold escChar
                    rw [if_neg h1, if_neg h2, if_neg h3, if_neg h4, if_neg h5,
                      if_neg h6, if_pos h7]
                  rw [hesc]
                  simp only [List.cons_append, List.nil_append, List.append_assoc]
                  rw [psb_esc_f, hc12, ih]
                  exact hgoal _ rfl
                · by_cases h8 : c.toNat < 32
                  · have hesc : escChar c = ['\\', 'u', '0', '0',
                        hexDigitChar (c.toNat / 16), hexDigitChar (c.toNat % 16)] := by
                      unfold escChar
                      rw [if_neg h1, if_neg h2, if_neg h3, if_neg h4, if_neg h5,
                        if_neg h6, if_neg h7, if_pos h8]
                    rw [hesc]
                    simp only [List.cons_append, List.nil_append, List.append_assoc]
                    rw [psb_esc_u, decodeHex_escape c.toNat h8, Char.ofNat_toNat]
                    dsimp only
                    rw [ih]
                    exact hgoal _ rfl
                  · have hesc : escChar c = [c] := by
                      unfold escChar
                      rw [if_neg h1, if_neg h2, if_neg h3, if_neg h4, if_neg h5,
                        if_neg h6, if_neg h7, if_neg h8]
                    rw [hesc]
                    simp only [List.cons_append, List.nil_append, List.append_assoc]
                    rw [psb_other _ _ h1 h2 h8, ih]
                    exact hgoal _ rfl

/-- `natToDigits` starts with a digit. -/
theorem natToDigits_head (k : Nat) :
    ∃ d ds, natToDigits k = d :: ds ∧ isDigitC d = true := by
  obtain ⟨d, ds, hds⟩ := List.exists_cons_of_ne_nil (natToDigits_ne_nil k)
  refine ⟨d, ds, hds, ?_⟩
  have := natToDigits_all k
  rw [hds, List.all_cons, Bool.and_eq_true] at this
  exact this.1

/-- `natToDigits` ends with a digit. -/
theorem natToDigits_last (k : Nat) :
    ∃ d, (natToDigits k).getLast? = some d ∧ isDigitC d = true := by
  refine ⟨(natToDigits k).getLast (natToDigits_ne_nil k),
    (List.getLast?_eq_getLast _ (natToDigits_ne_nil k)).symm ▸ rfl, ?_⟩
  have hmem := List.getLast_mem (natToDigits_ne_nil k)
  have := natToDigits_all k
  rw [List.all_eq_true] at this
  exact this _ hmem

/-- Every serialized value starts with a character that is neither whitespace
nor a closing bracket. -/
theorem serVal_head (v : JVal) :
    ∃ c t, serVal v = c :: t ∧ jsonWs c = false ∧ pySpace c = false ∧ c ≠ ']' := by
  cases v with
  | jnull => exact ⟨'n', _, rfl, by decide, by decide, by decide⟩
  | jbool b =>
    cases b
    · refine ⟨'f', _, rfl, ?_, ?_, ?_⟩ <;> decide
    · refine ⟨'t', _, rfl, ?_, ?_, ?_⟩ <;> decide
  | jint n =>
    cases n with
    | ofNat k =>
      obtain ⟨d, ds, hds, hd⟩ := natToDigits_head k
      exact ⟨d, ds, hds, (digit_char_ne hd).1, (digit_char_ne hd).2.1,
        (digit_char_ne hd).2.2.2.2.2.2.2.1⟩
    | negSucc k => exact ⟨'-', _, rfl, by decide, by decide, by decide⟩
  | jfloat m e =>
    by_cases hm : m < 0
    · refine ⟨'-', natToDigits (m.natAbs / 10 ^ (e + 1)) ++
        '.' :: natPad (m.natAbs % 10 ^ (e + 1)) (e + 1), ?_, by decide, by decide,
        by decide⟩
      show serFloat m e = _
      unfold serFloat
      rw [if_pos hm]
      simp [List.cons_append]
    · obtain ⟨d, ds, hds, hd⟩ := natToDigits_head (m.natAbs / 10 ^ (e + 1))
      refine ⟨d, ds ++ '.' :: natPad (m.natAbs % 10 ^ (e + 1)) (e + 1), ?_,
        (digit_char_ne hd).1, (digit_char_ne hd).2.1,
        (digit_char_ne hd).2.2.2.2.2.2.2.1⟩
      show serFloat m e = _
      unfold serFloat
      rw [if_neg hm, hds]
      simp [List.cons_append]
  | jstr s => exact ⟨'"', _, rfl, by decide, by decide, by decide⟩
  | jarr xs => exact ⟨'[', _, rfl, by decide, by decide, by decide⟩
  | jobj kvs => exact ⟨lbrace, _, rfl, by decide, by decide, by decide⟩

/-- Every serialized value ends with a non-whitespace character. -/
theorem serVal_last (v : JVal) :
    ∃ c, (serVal v).getLast? = some c ∧ pySpace c = false := by
  cases v with
  | jnull => exact ⟨'l', by decide, by decide⟩
  | jbool b => cases b with
    | true => exact ⟨'e', by decide, by decide⟩
    | false => exact ⟨'e', by decide, by decide⟩
  | jint n =>
    cases n with
    | ofNat k =>
      obtain ⟨d, hd, hdig⟩ := natToDigits_last k
      exact ⟨d, hd, (digit_char_ne hdig).2.1⟩
    | negSucc k =>
      obtain ⟨d, hd, hdig⟩ := natToDigits_last (k + 1)
      refine ⟨d, ?_, (digit_char_ne hdig).2.1⟩
      show (('-' :: natToDigits (k + 1)) : List Char).getLast? = some d
      obtain ⟨d0, ds0, hds0⟩ := List.exists_cons_of_ne_nil (natToDigits_ne_nil (k + 1))
      rw [hds0, List.getLast?_cons_cons, ← hds0]
      exact hd
  | jfloat m e =>
    have hpad : natPad (m.natAbs % 10 ^ (e + 1)) (e + 1) ≠ [] := by
      unfold natPad
      intro hc
      rcases List.append_eq_nil.mp hc with ⟨_, h2⟩
      exact natToDigits_ne_nil _ h2
    obtain ⟨d0, ds0, hds0⟩ := List.exists_cons_of_ne_nil hpad
    have hall := natPad_all (m.natAbs % 10 ^ (e + 1)) (e + 1)
    have hdl : ∃ d, (natPad (m.natAbs % 10 ^ (e + 1)) (e + 1)).getLast? = some d ∧
        isDigitC d = true := by
      refine ⟨(natPad _ _).getLast hpad,
        (List.getLast?_eq_getLast _ hpad).symm ▸ rfl, ?_⟩
      have hmem := List.getLast_mem hpad
      rw [List.all_eq_true] at hall
      exact hall _ hmem
    obtain ⟨d, hd, hdig⟩ := hdl
    refine ⟨d, ?_, (digit_char_ne hdig).2.1⟩
    show (serFloat m e).getLast? = some d
    unfold serFloat
    rw [show ((if m < 0 then ['-'] else []) ++
        natToDigits (m.natAbs / 10 ^ (e + 1)) ++
        '.' :: natPad (m.natAbs % 10 ^ (e + 1)) (e + 1)) =
      ((if m < 0 then ['-'] else []) ++ natToDigits (m.natAbs / 10 ^ (e + 1)) ++ ['.']) ++
        natPad (m.natAbs % 10 ^ (e + 1)) (e + 1) from by
        simp [List.append_assoc]]
    rw [List.getLast?_append, hd]
    rfl
  | jstr s =>
    refine ⟨'"', ?_, by decide⟩
    show (('"' :: (escChars s.data ++ ['"'])) : List Char).getLast? = some '"'
    rw [show ('"' :: (escChars s.data ++ ['"']) : List Char) =
      ('"' :: escChars s.data) ++ ['"'] from by simp]
    rw [List.getLast?_concat]
  | jarr xs =>
    refine ⟨']', ?_, by decide⟩
    show (('[' :: (serArr xs ++ [']'])) : List Char).getLast? = some ']'
    rw [show ('[' :: (serArr xs ++ [']']) : List Char) =
      ('[' :: serArr xs) ++ [']'] from by simp]
    rw [List.getLast?_concat]
  | jobj kvs =>
    refine ⟨rbrace, ?_, by decide⟩
    show ((lbrace :: (serObj kvs ++ [rbrace])) : List Char).getLast? = some rbrace
    rw [show (lbrace :: (serObj kvs ++ [rbrace]) : List Char) =
      (lbrace :: serObj kvs) ++ [rbrace] from by simp]
    rw [List.getLast?_concat]

/-- Whitespace skipping stops at a non-whitespace head. -/
theorem skipWs_cons_not {c : Char} (t : List Char) (h : jsonWs c = false) :
    skipWs (c :: t) = c :: t := by
  simp [skipWs, List.dropWhile_cons, h]

/-- Whitespace skipping crosses an all-whitespace prefix. -/
theorem skipWs_append_ws {pad : List Char} (rest : List Char)
    (h : pad.all jsonWs = true) : skipWs (pad ++ rest) = skipWs rest := by
  induction pad with
  | nil => rfl
  | cons c cs ih =>
    rw [List.all_cons, Bool.and_eq_true] at h
    rw [List.cons_append]
    show skipWs (c :: (cs ++ rest)) = _
    simp only [skipWs, List.dropWhile_cons, h.1, if_true]
    exact ih h.2

/-- `parseVal` on a `null` literal. -/
theorem pv_null (fuel : Nat) (rest : List Char) :
    parseVal (fuel + 1) ('n' :: 'u' :: 'l' :: 'l' :: rest) = some (.jnull, rest) := by
  rw [parseVal.eq_def]
  simp [skipWs, List.dropWhile_cons, jsonWs]

/-- `parseVal` on a `true` literal. -/
theorem pv_true (fuel : Nat) (rest : List Char) :
    parseVal (fuel + 1) ('t' :: 'r' :: 'u' :: 'e' :: rest) = some (.jbool true, rest) := by
  rw [parseVal.eq_def]
  simp [skipWs, List.dropWhile_cons, jsonWs]

/-- `parseVal` on a `false` literal. -/
theorem pv_false (fuel : Nat) (rest : List Char) :
    parseVal (fuel + 1) ('f' :: 'a' :: 'l' :: 's' :: 'e' :: rest) =
      some (.jbool false, rest) := by
  rw [parseVal.eq_def]
  simp [skipWs, List.dropWhile_cons, jsonWs]

/-- `parseVal` on an opening quote defers to the string-body parser. -/
theorem pv_str (fuel : Nat) (cs : List Char) :
    parseVal (fuel + 1) ('"' :: cs) =
      (match parseStrBody cs [] with
       | some (s, rest) => some (.jstr s, rest)
       | none => none) := by
  rw [parseVal.eq_def]
  simp [skipWs, List.dropWhile_cons, jsonWs]

/-- `parseVal` on an opening bracket defers to the element parser. -/
theorem pv_arr (fuel : Nat) (cs : List Char) :
    parseVal (fuel + 1) ('[' :: cs) =
      (match skipWs cs with
       | [] => none
       | c2 :: cs2 =>
         if c2 = ']' then some (.jarr [], cs2)
         else
           match parseItemsRest fuel (c2 :: cs2) with
           | some (vs, rest) => some (.jarr vs, rest)
           | none => none) := by
  rw [parseVal.eq_def]
  simp [skipWs, List.dropWhile_cons, jsonWs]

/-- `parseVal` on an opening brace defers to the field parser. -/
theorem pv_obj (fuel : Nat) (cs : List Char) :
    parseVal (fuel + 1) (lbrace :: cs) =
      (match skipWs cs with
       | [] => none
       | c2 :: cs2 =>
         if c2 = rbrace then some (.jobj [], cs2)
         else
           match parseFieldsRest fuel (c2 :: cs2) with
           | some (kvs, rest) => some (.jobj (dedupLastKeys kvs), rest)
           | none => none) := by
  rw [parseVal.eq_def]
  dsimp only
  rw [skipWs_cons_not _ (by decide)]
  dsimp only
  rw [if_neg (by decide), if_neg (by decide), if_neg (by decide), if_neg (by decide),
    if_neg (by decide), if_pos rfl]

/-- `parseVal` on a sign or digit defers to the number parser. -/
theorem pv_num (fuel : Nat) {c : Char} (cs : List Char)
    (h : c = '-' ∨ isDigitC c = true) :
    parseVal (fuel + 1) (c :: cs) = parseNum (c :: cs) := by
  have hws : jsonWs c = false := by
    rcases h with h | h
    · subst h; decide
    · exact (digit_char_ne h).1
  have h1 : ¬ c = 'n' := by
    rcases h with h | h
    · subst h; decide
    · exact (digit_char_ne h).2.2.2.2.2.2.2.2.2.2.1
  have h2 : ¬ c = 't' := by
    rcases h with h | h
    · subst h; decide
    · exact (digit_char_ne h).2.2.2.2.2.2.2.2.2.2.2.1
  have h3 : ¬ c = 'f' := by
    rcases h with h | h
    · subst h; decide
    · exact (digit_char_ne h).2.2.2.2.2.2.2.2.2.2.2.2.1
  have h4 : ¬ c = '"' := by
    rcases h with h | h
    · subst h; decide
    · exact (digit_char_ne h).2.2.2.2.2.2.2.2.2.1
  have h5 : ¬ c = '[' := by
    rcases h with h | h
    · subst h; decide
    · exact (digit_char_ne h).2.2.2.2.2.2.2.2.2.2.2.2.2.1
  have h6 : ¬ c = lbrace := by
    rcases h with h | h
    · subst h; decide
    · exact (digit_char_ne h).2.2.2.2.2.2.2.2.2.2.2.2.2.2.1
  rw [parseVal.eq_def]
  dsimp only
  rw [skipWs_cons_not _ hws]
  dsimp only
  rw [if_neg h1, if_neg h2, if_neg h3, if_neg h4, if_neg h5, if_neg h6, if_pos h]

/-- `parseVal` ignores a leading whitespace pad. -/
theorem parseVal_ws (fuel : Nat) (pad input : List Char) (h : pad.all jsonWs = true) :
    parseVal fuel (pad ++ input) = parseVal fuel input := by
  cases fuel with
  | zero => rfl
  | succ f =>
    conv_lhs => rw [parseVal.eq_def]
    conv_rhs => rw [parseVal.eq_def]
    dsimp only
    rw [skipWs_append_ws _ h]

/-- Every value has positive parser-fuel size. -/
theorem jsize_pos (v : JVal) : 1 ≤ jsize v := by
  cases v <;> simp [jsize]

/-- An array element needs strictly less fuel than the element list. -/
theorem mem_jsize_lt_items {x : JVal} : ∀ {xs : List JVal}, x ∈ xs →
    jsize x < jsizeItems xs := by
  intro xs
  induction xs with
  | nil => intro h; cases h
  | cons y ys ih =>
    intro h
    rcases List.mem_cons.mp h with rfl | h
    · simp [jsizeItems]
      omega
    · have := ih h
      simp [jsizeItems]
      omega

/-- A field value needs strictly less fuel than the field list. -/
theorem mem_jsize_lt_fields {p : String × JVal} : ∀ {kvs : List (String × JVal)},
    p ∈ kvs → jsize p.2 < jsizeFields kvs := by
  intro kvs
  induction kvs with
  | nil => intro h; cases h
  | cons q qs ih =>
    intro h
    rcases List.mem_cons.mp h with rfl | h
    · simp [jsizeFields]
      omega
    · have := ih h
      simp [jsizeFields]
      omega

/-- Deduplication only keeps original fields. -/
theorem dedupLastKeys_subset {p : String × JVal} :
    ∀ {kvs : List (String × JVal)}, p ∈ dedupLastKeys kvs → p ∈ kvs := by
  intro kvs
  induction kvs with
  | nil => intro h; cases h
  | cons kv rest ih =>
    intro h
    unfold dedupLastKeys at h
    split_ifs at h with hc
    · exact List.mem_cons_of_mem _ (ih h)
    · rcases List.mem_cons.mp h with rfl | h
      · exact List.mem_cons_self _ _
      · exact List.mem_cons_of_mem _ (ih h)

/-- Deduplication yields pairwise distinct keys. -/
theorem dedupLastKeys_keysNodup : ∀ (kvs : List (String × JVal)),
    keysNodup (dedupLastKeys kvs) = true := by
  intro kvs
  induction kvs with
  | nil => rfl
  | cons kv rest ih =>
    unfold dedupLastKeys
    split_ifs with hc
    · exact ih
    · show keysNodup (kv :: dedupLastKeys rest) = true
      unfold keysNodup
      rw [Bool.and_eq_true]
      refine ⟨?_, ih⟩
      rw [Bool.not_eq_eq_eq_not, Bool.not_true]
      rw [List.any_eq_false]
      intro q hq
      have hqrest := dedupLastKeys_subset hq
      intro hqk
      have : rest.any (fun p => p.1 == kv.1) = true :=
        List.any_eq_true.mpr ⟨q, hqrest, hqk⟩
      exact hc this

/-- Deduplication is the identity on field lists with distinct keys. -/
theorem dedupLastKeys_of_nodup : ∀ {kvs : List (String × JVal)},
    keysNodup kvs = true → dedupLastKeys kvs = kvs := by
  intro kvs
  induction kvs with
  | nil => intro _; rfl
  | cons kv rest ih =>
    intro h
    unfold keysNodup at h
    rw [Bool.and_eq_true, Bool.not_eq_eq_eq_not, Bool.not_true] at h
    unfold dedupLastKeys
    rw [if_neg (by rw [h.1]; exact Bool.false_ne_true), ih h.2]

/-- In a field list with pairwise distinct keys, lookup finds each field. -/
theorem lookupKey_self : ∀ {kvs : List (String × JVal)} {k : String} {v : JVal},
    keysNodup kvs = true → (k, v) ∈ kvs → lookupKey k kvs = some v := by
  intro kvs
  induction kvs with
  | nil => intro k v _ h; cases h
  | cons kv rest ih =>
    intro k v hnd h
    unfold keysNodup at hnd
    rw [Bool.and_eq_true, Bool.not_eq_eq_eq_not, Bool.not_true] at hnd
    rcases List.mem_cons.mp h with heq | h
    · rw [← heq]
      unfold lookupKey
      rw [List.find?_cons_of_pos _ (by simp)]
      rfl
    · have hne : (kv.1 == k) = false := by
        by_contra hcon
        rw [Bool.not_eq_false] at hcon
        have hk : kv.1 = k := by simpa using hcon
        have hany : rest.any (fun p => p.1 == kv.1) = true :=
          List.any_eq_true.mpr ⟨(k, v), h, by simp [hk]⟩
        rw [hnd.1] at hany
        exact Bool.false_ne_true hany
      unfold lookupKey
      rw [List.find?_cons_of_neg _ (by simp [hne])]
      exact ih hnd.2 h

/-- Zipping a list with itself pairs each element with itself. -/
theorem mem_zip_self {α : Type} {p : α × α} : ∀ {xs : List α},
    p ∈ xs.zip xs → p.1 = p.2 ∧ p.1 ∈ xs := by
  intro xs
  induction xs with
  | nil => intro h; cases h
  | cons x t ih =>
    intro h
    rw [List.zip_cons_cons] at h
    rcases List.mem_cons.mp h with h | h
    · subst h; exact ⟨rfl, List.mem_cons_self _ _⟩
    · obtain ⟨h1, h2⟩ := ih h
      exact ⟨h1, List.mem_cons_of_mem _ h2⟩

/-- Exact decimal equality is reflexive. -/
theorem numEqE_refl (x : Int × Int) : numEqE x x = true := by
  obtain ⟨m, e⟩ := x
  simp [numEqE]

/-- Python `==` (at sufficient fuel) is reflexive. -/
theorem pyEqF_refl : ∀ N, ∀ v : JVal, jsize v ≤ N → pyEqF N v v = true := by
  intro N
  induction N with
  | zero => intro v h; exact absurd h (by have := jsize_pos v; omega)
  | succ N ih =>
    intro v hv
    cases v with
    | jnull => rfl
    | jbool b => cases b <;> rfl
    | jint n =>
      simp only [pyEqF, asNum?]
      exact numEqE_refl _
    | jfloat m e =>
      simp only [pyEqF, asNum?]
      exact numEqE_refl _
    | jstr s =>
      simp only [pyEqF, asNum?]
      simp
    | jarr xs =>
      simp only [pyEqF, asNum?]
      rw [Bool.and_eq_true]
      refine ⟨by simp, ?_⟩
      rw [List.all_eq_true]
      intro p hp
      obtain ⟨h1, h2⟩ := mem_zip_self hp
      have hsz : jsize p.1 ≤ N := by
        have := mem_jsize_lt_items h2
        simp only [jsize] at hv
        omega
      rw [← h1]
      exact ih p.1 hsz
    | jobj kvs =>
      simp only [pyEqF, asNum?]
      rw [Bool.and_eq_true]
      refine ⟨by simp, ?_⟩
      rw [List.all_eq_true]
      intro kv hkv
      have hnd := dedupLastKeys_keysNodup kvs
      have hlk : lookupKey kv.1 (dedupLastKeys kvs) = some kv.2 :=
        lookupKey_self hnd hkv
      rw [hlk]
      have hsub := dedupLastKeys_subset hkv
      have hlt := mem_jsize_lt_fields hsub
      simp only [jsize] at hv
      exact ih kv.2 (by omega)

/-- Python `==` is reflexive. -/
theorem pyEq_refl (v : JVal) : pyEq v v = true := by
  unfold pyEq
  exact pyEqF_refl _ v (by omega)

/-- Element-list sizes are positive. -/
theorem jsizeItems_pos (xs : List JVal) : 1 ≤ jsizeItems xs := by
  cases xs with
  | nil => simp [jsizeItems]
  | cons x t => simp only [jsizeItems]; omega

/-- Field-list sizes are positive. -/
theorem jsizeFields_pos (kvs : List (String × JVal)) : 1 ≤ jsizeFields kvs := by
  cases kvs with
  | nil => simp [jsizeFields]
  | cons kv t => simp only [jsizeFields]; omega

/-- A serialized value is nonempty. -/
theorem serVal_length_pos (v : JVal) : 1 ≤ (serVal v).length := by
  obtain ⟨c, t, hct, -, -, -⟩ := serVal_head v
  rw [hct]
  simp

/-- The parser-fuel size of a value is dominated by (twice) the length of its
serialization, jointly with the element- and field-list versions. -/
theorem serVal_size_bound : ∀ N : Nat,
    (∀ v, jsize v ≤ N → jsize v + 1 ≤ 2 * (serVal v).length) ∧
    (∀ xs, jsizeItems xs ≤ N → jsizeItems xs ≤ 2 * (serArr xs).length + 2) ∧
    (∀ kvs, jsizeFields kvs ≤ N →
      jsizeFields kvs ≤ 2 * (serObj kvs).length + 2) := by
  intro N
  induction N with
  | zero =>
    refine ⟨?_, ?_, ?_⟩
    · intro v h; have := jsize_pos v; omega
    · intro xs h; have := jsizeItems_pos xs; omega
    · intro kvs h; have := jsizeFields_pos kvs; omega
  | succ N ih =>
    obtain ⟨ih1, ih2, ih3⟩ := ih
    refine ⟨?_, ?_, ?_⟩
    · intro v hv
      cases v with
      | jnull => decide
      | jbool b => cases b <;> decide
      | jint n =>
        have := serVal_length_pos (.jint n)
        simp only [jsize]
        omega
      | jfloat m e =>
        have := serVal_length_pos (.jfloat m e)
        simp only [jsize]
        omega
      | jstr s =>
        have := serVal_length_pos (.jstr s)
        simp only [jsize]
        omega
      | jarr xs =>
        simp only [jsize] at hv ⊢
        have h2 := ih2 xs (by omega)
        simp only [serVal, List.length_cons, List.length_append,
          List.length_singleton]
        omega
      | jobj kvs =>
        simp only [jsize] at hv ⊢
        have h2 := ih3 kvs (by omega)
        simp only [serVal, List.length_cons, List.length_append,
          List.length_singleton]
        omega
    · intro xs hxs
      cases xs with
      | nil => simp [jsizeItems, serArr]
      | cons x xs =>
        simp only [jsizeItems] at hxs ⊢
        have h1 := ih1 x (by have := jsizeItems_pos xs; omega)
        cases xs with
        | nil =>
          simp only [serArr, serArrTail, List.append_nil, jsizeItems]
          omega
        | cons y ys =>
          have h2 := ih2 (y :: ys) (by have := jsize_pos x; omega)
          simp only [serArr, serArrTail, jsizeItems, List.length_append,
            List.length_cons] at h2 ⊢
          omega
    · intro kvs hkvs
      cases kvs with
      | nil => simp [jsizeFields, serObj]
      | cons kv kvs =>
        obtain ⟨k, w⟩ := kv
        simp only [jsizeFields] at hkvs ⊢
        have h1 := ih1 w (by have := jsizeFields_pos kvs; omega)
        cases kvs with
        | nil =>
          simp only [serObj, serObjTail, serField, List.append_nil, jsizeFields,
            List.length_append, List.length_cons]
          omega
        | cons kv2 kvs2 =>
          have h2 := ih3 (kv2 :: kvs2) (by have := jsize_pos w; omega)
          simp only [serObj, serObjTail, serField, jsizeFields,
            List.length_append, List.length_cons] at h2 ⊢
          omega

/-- The `json.loads` fuel (`2 * length + 1`) covers a value's own
serialization. -/
theorem jsize_le_fuel (v : JVal) : jsize v ≤ 2 * (serVal v).length + 1 := by
  have := (serVal_size_bound (jsize v)).1 v le_rfl
  omega

/-- A serialized integer starts with a minus sign or a digit. -/
theorem serInt_head (n : Int) :
    ∃ c t, serInt n = c :: t ∧ (c = '-' ∨ isDigitC c = true) := by
  cases n with
  | ofNat k =>
    obtain ⟨d, ds, hds, hd⟩ := natToDigits_head k
    exact ⟨d, ds, hds, Or.inr hd⟩
  | negSucc k => exact ⟨'-', _, rfl, Or.inl rfl⟩

/-- A serialized float starts with a minus sign or a digit. -/
theorem serFloat_head (m : Int) (e : Nat) :
    ∃ c t, serFloat m e = c :: t ∧ (c = '-' ∨ isDigitC c = true) := by
  by_cases hm : m < 0
  · refine ⟨'-', natToDigits (m.natAbs / 10 ^ (e + 1)) ++
      '.' :: natPad (m.natAbs % 10 ^ (e + 1)) (e + 1), ?_, Or.inl rfl⟩
    unfold serFloat
    rw [if_pos hm]
    simp [List.cons_append]
  · obtain ⟨d, ds, hds, hd⟩ := natToDigits_head (m.natAbs / 10 ^ (e + 1))
    refine ⟨d, ds ++ '.' :: natPad (m.natAbs % 10 ^ (e + 1)) (e + 1), ?_,
      Or.inr hd⟩
    unfold serFloat
    rw [if_neg hm, hds]
    simp [List.cons_append]

/-- Parsing the serialization of a well-formed value (followed by a safe
remainder) returns exactly that value, provided the fuel covers the value's
size; jointly with the array-element and object-field versions, which also
absorb a leading whitespace pad. -/
theorem serVal_parseVal : ∀ N : Nat,
    (∀ v, jsize v ≤ N → wfJ v = true → ∀ fuel rest, jsize v ≤ fuel →
      safeRestB rest = true →
      parseVal fuel (serVal v ++ rest) = some (v, rest)) ∧
    (∀ x xs, jsizeItems (x :: xs) ≤ N → wfItems (x :: xs) = true →
      ∀ fuel pad rest, jsizeItems (x :: xs) ≤ fuel → pad.all jsonWs = true →
        safeRestB rest = true →
        parseItemsRest fuel (pad ++ (serArr (x :: xs) ++ ']' :: rest)) =
          some (x :: xs, rest)) ∧
    (∀ kv kvs, jsizeFields (kv :: kvs) ≤ N → wfFields (kv :: kvs) = true →
      ∀ fuel pad rest, jsizeFields (kv :: kvs) ≤ fuel → pad.all jsonWs = true →
        safeRestB rest = true →
        parseFieldsRest fuel (pad ++ (serObj (kv :: kvs) ++ rbrace :: rest)) =
          some (kv :: kvs, rest)) := by
  intro N
  induction N with
  | zero =>
    refine ⟨?_, ?_, ?_⟩
    · intro v h
      exact absurd h (by have := jsize_pos v; omega)
    · intro x xs h
      exact absurd h (by simp only [jsizeItems]; omega)
    · intro kv kvs h
      exact absurd h (by simp only [jsizeFields]; omega)
  | succ N ih =>
    obtain ⟨ih1, ih2, ih3⟩ := ih
    refine ⟨?_, ?_, ?_⟩
    · intro v hv hwf fuel rest hfuel hrest
      cases fuel with
      | zero => exact absurd hfuel (by have := jsize_pos v; omega)
      | succ f =>
        cases v with
        | jnull => exact pv_null f rest
        | jbool b =>
          cases b with
          | true => exact pv_true f rest
          | false => exact pv_false f rest
        | jint n =>
          obtain ⟨c, t, hct, hc⟩ := serInt_head n
          show parseVal (f + 1) (serInt n ++ rest) = some (.jint n, rest)
          rw [hct, List.cons_append, pv_num f _ hc, ← List.cons_append, ← hct]
          exact parseNum_serInt n rest hrest
        | jfloat m e =>
          obtain ⟨c, t, hct, hc⟩ := serFloat_head m e
          show parseVal (f + 1) (serFloat m e ++ rest) = some (.jfloat m e, rest)
          rw [hct, List.cons_append, pv_num f _ hc, ← List.cons_append, ← hct]
          exact parseNum_serFloat m e rest hrest
        | jstr s =>
          show parseVal (f + 1) (('"' :: (escChars s.data ++ ['"'])) ++ rest) =
            some (.jstr s, rest)
          rw [List.cons_append, pv_str, List.append_assoc,
            List.singleton_append, parseStrBody_escChars]
          rfl
        | jarr xs =>
          show parseVal (f + 1) (('[' :: (serArr xs ++ [']'])) ++ rest) =
            some (.jarr xs, rest)
          rw [List.cons_append, pv_arr, List.append_assoc, List.singleton_append]
          simp only [wfJ] at hwf
          cases xs with
          | nil =>
            rw [show serArr ([] : List JVal) ++ ']' :: rest = ']' :: rest
              from rfl]
            rw [skipWs_cons_not _ (by decide)]
            simp
          | cons x xs =>
            obtain ⟨c, t, hct, hcw, -, hcb⟩ := serVal_head x
            have hs : serArr (x :: xs) ++ ']' :: rest =
                c :: (t ++ (serArrTail xs ++ ']' :: rest)) := by
              simp only [serArr, hct, List.cons_append, List.append_assoc]
            rw [hs, skipWs_cons_not _ hcw]
            dsimp only
            rw [if_neg hcb, ← hs]
            have h2 := ih2 x xs (by simp only [jsize] at hv; omega) hwf f []
              rest (by simp only [jsize] at hfuel; omega) rfl hrest
            rw [List.nil_append] at h2
            rw [h2]
        | jobj kvs =>
          show parseVal (f + 1) ((lbrace :: (serObj kvs ++ [rbrace])) ++ rest) =
            some (.jobj kvs, rest)
          rw [List.cons_append, pv_obj, List.append_assoc, List.singleton_append]
          simp only [wfJ, Bool.and_eq_true] at hwf
          cases kvs with
          | nil =>
            rw [show serObj ([] : List (String × JVal)) ++ rbrace :: rest =
              rbrace :: rest from rfl]
            rw [skipWs_cons_not _ (by decide)]
            simp
          | cons kv kvs =>
            obtain ⟨k, w⟩ := kv
            have hs : serObj ((k, w) :: kvs) ++ rbrace :: rest =
                '"' :: (escChars k.data ++ '"' :: ':' :: ' ' ::
                  (serVal w ++ (serObjTail kvs ++ rbrace :: rest))) := by
              simp only [serObj, serField, List.cons_append, List.append_assoc]
            rw [hs, skipWs_cons_not _ (by decide)]
            dsimp only
            rw [if_neg (by decide), ← hs]
            have h3 := ih3 (k, w) kvs (by simp only [jsize] at hv; omega) hwf.2
              f [] rest (by simp only [jsize] at hfuel; omega) rfl hrest
            rw [List.nil_append] at h3
            rw [h3]
            dsimp only
            rw [dedupLastKeys_of_nodup hwf.1]
    · intro x xs hsz hwf fuel pad rest hfuel hpad hrest
      simp only [wfItems, Bool.and_eq_true] at hwf
      simp only [jsizeItems] at hsz hfuel
      cases fuel with
      | zero => exact absurd hfuel (by omega)
      | succ g =>
        rw [parseItemsRest.eq_def]
        dsimp only
        have harg : pad ++ (serArr (x :: xs) ++ ']' :: rest) =
            pad ++ (serVal x ++ (serArrTail xs ++ ']' :: rest)) := by
          simp [serArr, List.append_assoc]
        rw [harg, parseVal_ws g pad _ hpad]
        have hrest2 : safeRestB (serArrTail xs ++ ']' :: rest) = true := by
          cases xs with
          | nil => rfl
          | cons y ys => rfl
        have h1 := ih1 x (by have := jsizeItems_pos xs; omega) hwf.1 g
          (serArrTail xs ++ ']' :: rest) (by have := jsizeItems_pos xs; omega)
          hrest2
        rw [h1]
        dsimp only
        cases xs with
        | nil =>
          rw [show serArrTail ([] : List JVal) ++ ']' :: rest = ']' :: rest
            from rfl]
          rw [skipWs_cons_not _ (by decide)]
          dsimp only
          rw [if_neg (by decide), if_pos rfl]
        | cons y ys =>
          have hs2 : serArrTail (y :: ys) ++ ']' :: rest =
              ',' :: (' ' :: (serArr (y :: ys) ++ ']' :: rest)) := by
            simp [serArrTail, serArr, List.cons_append, List.append_assoc]
          rw [hs2, skipWs_cons_not _ (by decide)]
          dsimp only
          rw [if_pos rfl]
          have h2 := ih2 y ys (by have := jsize_pos x; omega) hwf.2 g [' ']
            rest (by have := jsize_pos x; omega) (by decide) hrest
          rw [show (' ' :: (serArr (y :: ys) ++ ']' :: rest)) =
            [' '] ++ (serArr (y :: ys) ++ ']' :: rest) from rfl, h2]
    · intro kv kvs hsz hwf fuel pad rest hfuel hpad hrest
      obtain ⟨k, w⟩ := kv
      simp only [wfFields, Bool.and_eq_true] at hwf
      simp only [jsizeFields] at hsz hfuel
      cases fuel with
      | zero => exact absurd hfuel (by omega)
      | succ g =>
        rw [parseFieldsRest.eq_def]
        dsimp only
        have harg : pad ++ (serObj ((k, w) :: kvs) ++ rbrace :: rest) =
            pad ++ ('"' :: (escChars k.data ++ '"' :: ':' :: ' ' ::
              (serVal w ++ (serObjTail kvs ++ rbrace :: rest)))) := by
          simp only [serObj, serField, List.cons_append, List.append_assoc]
        rw [harg, skipWs_append_ws _ hpad, skipWs_cons_not _ (by decide)]
        dsimp only
        rw [if_pos rfl, parseStrBody_escChars]
        dsimp only
        rw [skipWs_cons_not _ (by decide)]
        dsimp only
        rw [if_pos rfl]
        rw [show (' ' :: (serVal w ++ (serObjTail kvs ++ rbrace :: rest))) =
          [' '] ++ (serVal w ++ (serObjTail kvs ++ rbrace :: rest)) from rfl]
        rw [parseVal_ws g [' '] _ (by decide)]
        have hsafe : safeRestB (serObjTail kvs ++ rbrace :: rest) = true := by
          cases kvs with
          | nil => rfl
          | cons a b => rfl
        have h1 := ih1 w (by have := jsizeFields_pos kvs; omega) hwf.1 g
          (serObjTail kvs ++ rbrace :: rest)
          (by have := jsizeFields_pos kvs; omega) hsafe
        rw [h1]
        dsimp only
        cases kvs with
        | nil =>
          rw [show serObjTail ([] : List (String × JVal)) ++ rbrace :: rest =
            rbrace :: rest from rfl]
          rw [skipWs_cons_not _ (by decide)]
          dsimp only
          rw [if_neg (by decide), if_pos rfl]
          rfl
        | cons kv2 kvs2 =>
          have hs2 : serObjTail (kv2 :: kvs2) ++ rbrace :: rest =
              ',' :: (' ' :: (serObj (kv2 :: kvs2) ++ rbrace :: rest)) := by
            simp [serObjTail, serObj, List.cons_append, List.append_assoc]
          rw [hs2, skipWs_cons_not _ (by decide)]
          dsimp only
          rw [if_pos rfl]
          have h2 := ih3 kv2 kvs2 (by have := jsize_pos w; omega) hwf.2 g [' ']
            rest (by have := jsize_pos w; omega) (by decide) hrest
          rw [show (' ' :: (serObj (kv2 :: kvs2) ++ rbrace :: rest)) =
            [' '] ++ (serObj (kv2 :: kvs2) ++ rbrace :: rest) from rfl, h2]
          rfl

/-- `json.loads` inverts the serialization of a well-formed value. -/
theorem jsonLoadsL_serVal {v : JVal} (h : wfJ v = true) :
    jsonLoadsL (serVal v) = some v := by
  have hb := jsize_le_fuel v
  have hp := (serVal_parseVal (jsize v)).1 v le_rfl h
    (2 * (serVal v).length + 1) [] hb rfl
  rw [List.append_nil] at hp
  unfold jsonLoadsL
  rw [hp]
  rfl

/-- `strip()` leaves a list alone when neither end is whitespace. -/
theorem pyStripL_eq_self {cs : List Char}
    (h1 : ∀ c t, cs = c :: t → pySpace c = false)
    (h2 : ∀ c, cs.getLast? = some c → pySpace c = false) :
    pyStripL cs = cs := by
  cases cs with
  | nil => rfl
  | cons c t =>
    have hc := h1 c t rfl
    unfold pyStripL
    rw [List.dropWhile_cons, if_neg (by simp [hc])]
    obtain ⟨d, u, hdu⟩ := List.exists_cons_of_ne_nil
      (show (c :: t : List Char).reverse ≠ [] by simp)
    have hd : pySpace d = false := by
      apply h2
      rw [← List.head?_reverse, hdu]
      rfl
    rw [hdu, List.dropWhile_cons, if_neg (by simp [hd]), ← hdu,
      List.reverse_reverse]

/-- `strip()` leaves a serialized value alone. -/
theorem pyStripL_serVal (v : JVal) : pyStripL (serVal v) = serVal v := by
  apply pyStripL_eq_self
  · intro c t hct
    obtain ⟨c2, t2, hct2, -, hsp, -⟩ := serVal_head v
    rw [hct2] at hct
    injection hct with h1 _
    exact h1 ▸ hsp
  · intro c hc
    obtain ⟨c2, hc2, hsp⟩ := serVal_last v
    rw [hc2] at hc
    injection hc with h1
    exact h1 ▸ hsp

/-- If the JSON tier parses the stripped output to a value that is Python-equal
to the expectation, the comparison succeeds. -/
theorem compareOutput_of_parse {output : String} {expected op : JVal}
    (hp : jsonLoadsL (pyStripL output.data) = some op)
    (he : pyEq op expected = true) :
    compareOutput output expected = true := by
  simp only [compareOutput]
  split
  · rfl
  · simp [hp, he]

set_option maxRecDepth 40000 in
/-- C1: `_compare_output` accepts the JSON serialization of every
JSON-serializable (well-formed: no dict holds duplicate keys) value against
that value itself — the JSON tier parses the serialization back and deep
equality is reflexive; and in particular, as the claim instantiates it,
`_compare_output('["a","b"]', ["a","b"])`, `_compare_output("3.0", 3)` and
`_compare_output("3", 3.0)` are all `True` (the mixed-type numeric pairs
already succeed at the JSON tier, whose deep equality — like the float tier —
compares numbers by value across `int`/`float`). -/
theorem compare_output_roundtrip :
    (∀ v : JVal, wfJ v = true → compareOutput ⟨serVal v⟩ v = true) ∧
    compareOutput "[\"a\",\"b\"]" (.jarr [.jstr "a", .jstr "b"]) = true ∧
    compareOutput "3.0" (.jint 3) = true ∧
    compareOutput "3" (.jfloat 30 0) = true := by
  refine ⟨?_, by decide, by decide, by decide⟩
  intro v hwf
  exact compareOutput_of_parse
    (by rw [show (String.mk (serVal v)).data = serVal v from rfl,
          pyStripL_serVal]
        exact jsonLoadsL_serVal hwf)
    (pyEq_refl v)

set_option maxRecDepth 40000 in
/-- Witness for C1: the universal part applied to a concrete well-formed
value (an object holding a mixed array). -/
theorem compare_output_roundtrip_witness :
    wfJ (.jobj [("k", .jarr [.jint 1, .jstr "x"])]) = true ∧
    compareOutput ⟨serVal (.jobj [("k", .jarr [.jint 1, .jstr "x"])])⟩
      (.jobj [("k", .jarr [.jint 1, .jstr "x"])]) = true :=
  ⟨by decide, compare_output_roundtrip.1 _ (by decide)⟩
